import Mathlib

/-!
# GoLEP: the HTTP-to-Lepton relay handler of `main.go`

A shallow embedding of `leptonHandler.ServeHTTP` together with the two library
facilities whose behaviour the handler's contract depends on: the compiled
regular expressions `jpegExp` / `lepExp` and `path.Join` (with `path.Clean`).

Conventions.
* A Go `string` that is inspected character by character (paths) is a
  `List Char`.  The characters the code looks at (`/`, `.`, newline and the
  ASCII letters of the patterns) are single bytes that never occur inside a
  multi-byte UTF-8 sequence, so scanning characters agrees with scanning bytes.
* Byte streams (file contents, codec reply, response body) are `List Byte`.
* A Go `error` value is `Option GoError`; `none` is `nil`.
* The outcomes of `io.Copy(conn, file)` and `CloseWrite`, which the handler
  discards, are given by the world like those of the other calls on the codec
  side.  The calls on the response side (`Write`, `io.Copy(w, conn)`) and
  `Close` are taken to run to completion.
-/

namespace GoLEP

/-! ## Bytes and strings -/

abbrev Byte := Nat

/-- The bytes of a Go string (its UTF-8 encoding). -/
def stringBytes (s : String) : List Byte :=
  (s.data.flatMap String.utf8EncodeChar).map UInt8.toNat

/-- A non-nil Go `error`, identified with the text `Error()` returns. -/
abbrev GoError := String

/-! ## `regexp`: the fragment used by `jpegExp` and `lepExp` -/

/-- Regular expressions over characters.  `dot` is `.` with the default flags:
any character except newline.  `empty` (no match) only arises in derivatives. -/
inductive Regex where
  | empty : Regex
  | eps : Regex
  | lit (c : Char) : Regex
  | dot : Regex
  | cat (a b : Regex) : Regex
  | alt (a b : Regex) : Regex
  | star (a : Regex) : Regex
  deriving DecidableEq

namespace Regex

/-- The optional expression `a?`. -/
def opt (a : Regex) : Regex := alt a eps

/-- Does the expression accept the empty text? -/
def nullable : Regex → Bool
  | empty => false
  | eps => true
  | lit _ => false
  | dot => false
  | cat a b => nullable a && nullable b
  | alt a b => nullable a || nullable b
  | star _ => true

/-- Brzozowski derivative: what remains to be matched after reading `c`. -/
def deriv : Regex → Char → Regex
  | empty, _ => empty
  | eps, _ => empty
  | lit d, c => if c = d then eps else empty
  | dot, c => if c = '\n' then empty else eps
  | cat a b, c =>
      if nullable a then alt (cat (deriv a c) b) (deriv b c) else cat (deriv a c) b
  | alt a b, c => alt (deriv a c) (deriv b c)
  | star a, c => cat (deriv a c) (star a)

/-- The whole text is matched by the expression. -/
def fullMatch (r : Regex) (s : List Char) : Bool :=
  nullable (s.foldl deriv r)

end Regex

/-- The texts an expression denotes (the usual language semantics), against
which the derivative matcher is checked. -/
def Regex.Lang : Regex → List Char → Prop
  | .empty, _ => False
  | .eps, s => s = []
  | .lit c, s => s = [c]
  | .dot, s => ∃ c, c ≠ '\n' ∧ s = [c]
  | .cat a b, s => ∃ u v, s = u ++ v ∧ Lang a u ∧ Lang b v
  | .alt a b, s => Lang a s ∨ Lang b s
  | .star a, s => ∃ L : List (List Char), s = L.flatten ∧ ∀ u ∈ L, u ≠ [] ∧ Lang a u

/-- A compiled pattern of the shape `^body$`.  Without the `m` flag `^` and `$`
anchor at the beginning and the end of the text, so `MatchString` holds exactly
when the whole text is matched by `body`. -/
structure Regexp where
  body : Regex

/-- The method `MatchString` of a compiled pattern. -/
def Regexp.MatchString (re : Regexp) (s : List Char) : Bool :=
  re.body.fullMatch s

/-- The pattern `^.*\.jpe?g$` compiled by `regexp.MustCompile` (main.go line 23). -/
def jpegExp : Regexp :=
  ⟨.cat (.star .dot) (.cat (.lit '.') (.cat (.lit 'j') (.cat (.lit 'p')
    (.cat (Regex.opt (.lit 'e')) (.lit 'g')))))⟩

/-- The pattern `^.*\.lep$` compiled by `regexp.MustCompile` (main.go line 24). -/
def lepExp : Regexp :=
  ⟨.cat (.star .dot) (.cat (.lit '.') (.cat (.lit 'l') (.cat (.lit 'e') (.lit 'p'))))⟩

/-! ## `path.Clean` and `path.Join` (Go standard library, package `path`) -/

/-- The inner loop of the `..` case of `path.Clean`:
`for out.w > dotdot && out.index(out.w) != '/' { out.w-- }`, as a function of
the current `out.w`. -/
def backtrack (out : List Char) (dotdot : Nat) : Nat → Nat
  | 0 => 0
  | w + 1 =>
      if w + 1 > dotdot ∧ out.get? (w + 1) ≠ some '/' then backtrack out dotdot w else w + 1

/-- One iteration of the loop of `path.Clean`: the `switch` on the unread part
`c :: rest` of the path.  `out` is the written part of the buffer (`out.w` is
its length).  Returns the unread part, `out` and `dotdot` after the iteration. -/
def cleanStep (rooted : Bool) (c : Char) (rest out : List Char) (dotdot : Nat) :
    List Char × List Char × Nat :=
  if c = '/' then
    -- empty path element
    (rest, out, dotdot)
  else if c = '.' ∧ (rest = [] ∨ rest.head? = some '/') then
    -- . element
    (rest, out, dotdot)
  else if c = '.' ∧ rest.head? = some '.' ∧ (rest.tail = [] ∨ rest.tail.head? = some '/') then
    -- .. element: remove to last /
    if out.length > dotdot then
      -- can backtrack
      (rest.tail, out.take (backtrack out dotdot (out.length - 1)), dotdot)
    else if ¬ rooted then
      -- cannot backtrack, but not rooted, so append .. element
      (rest.tail, (if out.length > 0 then out ++ ['/'] else out) ++ ['.', '.'],
        ((if out.length > 0 then out ++ ['/'] else out) ++ ['.', '.']).length)
    else
      (rest.tail, out, dotdot)
  else
    -- real path element: add slash if needed, copy element
    ((c :: rest).dropWhile (· ≠ '/'),
      (if (rooted ∧ out.length ≠ 1) ∨ (¬ rooted ∧ out.length ≠ 0) then out ++ ['/'] else out)
        ++ (c :: rest).takeWhile (· ≠ '/'),
      dotdot)

/-- The loop `for r < n { switch ... }` of `path.Clean`, started on the unread
part of the path; the result is the final `(out, dotdot)`.  The first argument
bounds the number of iterations; every iteration consumes at least one
character, so `path.length` iterations always suffice. -/
def cleanLoop (rooted : Bool) : Nat → List Char → List Char → Nat → List Char × Nat
  | 0, _, out, dotdot => (out, dotdot)
  | _ + 1, [], out, dotdot => (out, dotdot)
  | fuel + 1, c :: rest, out, dotdot =>
      cleanLoop rooted fuel (cleanStep rooted c rest out dotdot).1
        (cleanStep rooted c rest out dotdot).2.1 (cleanStep rooted c rest out dotdot).2.2

/-- The function `path.Clean`. -/
def Clean (path : List Char) : List Char :=
  if path = [] then ['.']
  else
    let rooted : Bool := path.head? = some '/'
    let out :=
      (if rooted then cleanLoop rooted path.length path.tail ['/'] 1
       else cleanLoop rooted path.length path [] 0).1
    -- Turn empty string into "."
    if out.length = 0 then ['.'] else out

/-- The function `path.Join`: the elements from the first non-empty one on,
joined by `/`, then cleaned. -/
def Join (elem : List (List Char)) : List Char :=
  if (elem.map List.length).sum = 0 then []
  else
    Clean (elem.foldl
      (fun buf e =>
        if buf.length > 0 ∨ e ≠ [] then (if buf.length > 0 then buf ++ ['/'] else buf) ++ e
        else buf) [])

/-! ## Containment of paths -/

/-- The `/`-separated elements of a path. -/
def segments : List Char → List (List Char)
  | [] => [[]]
  | c :: cs =>
      if c = '/' then [] :: segments cs
      else
        match segments cs with
        | [] => [[c]]
        | s :: ss => (c :: s) :: ss

/-- An element that names a directory entry: not empty, not `.`, not `..`. -/
def isName (s : List Char) : Bool :=
  s ≠ [] ∧ s ≠ ['.'] ∧ s ≠ ['.', '.']

/-- A relative path that only descends: all its elements are names. -/
def descends (rel : List Char) : Bool :=
  (segments rel).all isName

/-- The path `q` is the directory `dir` itself or lies strictly beneath it: it
is `dir` followed by a descending relative path (directly for `dir = "."`,
after the `/` of `dir = "/"`, after a separating `/` otherwise). -/
abbrev within (dir q : List Char) : Prop :=
  q = dir ∨
  (dir = ['.'] ∧ descends q = true) ∨
  (dir = ['/'] ∧ q.take 1 = ['/'] ∧ descends (q.drop 1) = true) ∨
  (q.take (dir.length + 1) = dir ++ ['/'] ∧ descends (q.drop (dir.length + 1)) = true)

/-- The `.` element of the `switch`. -/
abbrev isDot (c : Char) (rest : List Char) : Prop :=
  c = '.' ∧ (rest = [] ∨ rest.head? = some '/')

/-- The `..` element of the `switch`. -/
abbrev isDotDot (c : Char) (rest : List Char) : Prop :=
  c = '.' ∧ rest.head? = some '.' ∧ (rest.tail = [] ∨ rest.tail.head? = some '/')

/-- The elements after the first `/` of a path, if there is one. -/
def restSegments : List Char → List (List Char)
  | [] => []
  | _ :: t => segments t

/-- Walking the elements of a request path from a directory.  The stack holds
the names descended so far: a name descends, `..` climbs back over the last
name, empty elements and `.` stay in place. -/
def walk : List (List Char) → List (List Char) → List (List Char)
  | st, [] => st
  | st, s :: ss =>
      if s = ['.', '.'] then walk st.dropLast ss
      else if s = [] ∨ s = ['.'] then walk st ss
      else walk (st ++ [s]) ss

/-- Walking the elements from depth `d` below a directory never climbs above
that directory: every `..` is met at a depth of at least one. -/
def staysBelow : Nat → List (List Char) → Bool
  | _, [] => true
  | d, s :: ss =>
      if s = ['.', '.'] then decide (0 < d) && staysBelow (d - 1) ss
      else if s = [] ∨ s = ['.'] then staysBelow d ss
      else staysBelow (d + 1) ss

/-- Appending a real path element to the buffer (the default case of the
`switch`): a slash if needed, then the element. -/
def appendElem (rooted : Bool) (out elem : List Char) : List Char :=
  (if (rooted ∧ out.length ≠ 1) ∨ (¬ rooted ∧ out.length ≠ 0) then out ++ ['/'] else out) ++ elem

/-- The text `/n1/n2/...` for the names `n1, n2, ...`. -/
def slashJoin (ns : List (List Char)) : List Char :=
  (ns.map (fun n => '/' :: n)).flatten

/-- The last step of `path.Clean`: an empty buffer becomes `.`. -/
def finish (out : List Char) : List Char :=
  if out.length = 0 then ['.'] else out

/-! ## The world the handler talks to -/

/-- A resolved network address (`*net.TCPAddr` / `*net.UnixAddr`). -/
abbrev Addr := String

/-- The fields of `url.URL` the handler reads from `leptonUrl`. -/
structure URL where
  Scheme : String
  Host : String
  Path : String

/-- Package-level configuration: `*root` and `leptonUrl`. -/
structure Config where
  root : String
  leptonUrl : URL

/-- The fields of `*http.Request` the handler reads: `r.Method`, `r.URL.Path`. -/
structure Request where
  Method : String
  Path : String

/-- What the codec does on one connection: the byte stream it sends, and what
the first read system call on the socket delivers as far as it is not fixed
by the buffer (`firstN` bytes are offered to it, `firstErr` is its error). -/
structure Reply where
  stream : List Byte
  firstN : Nat
  firstErr : Option GoError

/-- Outcomes of the external calls the handler makes. -/
structure Env where
  /-- The call `os.Open`: the error, or the contents of the opened file. -/
  Open : List Char → Except GoError (List Byte)
  /-- The call `net.ResolveTCPAddr(network, address)` as `(addr, addrErr)`. -/
  ResolveTCPAddr : String → String → Option Addr × Option GoError
  /-- The call `net.ResolveUnixAddr(network, address)` as `(addr, addrErr)`. -/
  ResolveUnixAddr : String → String → Option Addr × Option GoError
  /-- The call `net.DialTCP(network, nil, raddr)`: `none` when the connection is made. -/
  DialTCP : String → Option Addr → Option GoError
  /-- The call `net.DialUnix(network, nil, raddr)`: `none` when the connection is made. -/
  DialUnix : String → Option Addr → Option GoError
  /-- The call `io.Copy(conn, file)` as `(written, err)`: the first `written`
  bytes of the file reach the connection. -/
  Copy : List Byte → Nat × Option GoError
  /-- The call `conn.CloseWrite()`: `none` when the write direction is shut down. -/
  CloseWrite : Option GoError
  /-- The codec: its reply to the bytes it received. -/
  codec : List Byte → Reply

/-- The `http.ResponseWriter` as the handler sees it. -/
structure ResponseWriter where
  header : List (String × String)
  status : Option Nat
  body : List Byte
  deriving DecidableEq

/-- The response writer handed to the handler by the server. -/
def ResponseWriter.fresh : ResponseWriter := ⟨[], none, []⟩

/-- A codec connection (`*net.TCPConn` or `*net.UnixConn`). -/
structure Conn where
  /-- bytes written to the connection so far -/
  sent : List Byte
  /-- whether the write direction has been shut down -/
  writeClosed : Bool
  /-- reply bytes not yet read -/
  unread : List Byte
  /-- whether `Close` has been called -/
  closed : Bool
  deriving DecidableEq

/-- Calls made by the handler, in order. -/
inductive Event where
  | openFile (path : List Char)
  | resolve (network address : String)
  | dial (network : String) (addr : Option Addr)
  | connWrite (data : List Byte)
  | closeWrite
  | connRead (numRead : Nat)
  | addHeader (key value : String)
  | writeHeader (code : Nat)
  | write (data : List Byte)
  | copyToResponse (data : List Byte)
  | connClose
  | fileClose
  | log
  | panic
  deriving DecidableEq

/-- State of one invocation of the handler. -/
structure State where
  w : ResponseWriter
  /-- the dialed codec connection (`tcpConn` or `unixConn`), if any -/
  conn : Option Conn
  fileOpen : Bool
  trace : List Event
  panicked : Bool
  deriving DecidableEq

def StatusOK : Nat := 200
def StatusNotFound : Nat := 404
def StatusInternalServerError : Nat := 500
def StatusBadGateway : Nat := 502

namespace State

def emit (s : State) (e : Event) : State := { s with trace := s.trace ++ [e] }

/-- The call `w.Header().Add(key, value)`. -/
def Add (s : State) (key value : String) : State :=
  { s with w := { s.w with header := s.w.header ++ [(key, value)] },
           trace := s.trace ++ [.addHeader key value] }

/-- The call `w.WriteHeader(code)`: the first call fixes the status. -/
def WriteHeader (s : State) (code : Nat) : State :=
  { s with w := { s.w with status := some (s.w.status.getD code) },
           trace := s.trace ++ [.writeHeader code] }

/-- The call `w.Write(data)`: an implicit `WriteHeader(200)` if none was made,
then the body grows. -/
def Write (s : State) (data : List Byte) : State :=
  { s with w := { s.w with status := some (s.w.status.getD StatusOK), body := s.w.body ++ data },
           trace := s.trace ++ [.write data] }

/-- The call `io.WriteString(w, str)`. -/
def WriteString (s : State) (str : String) : State := s.Write (stringBytes str)

/-- The call `io.Copy(conn, file)` with both results discarded: the bytes the
copy transfers before it ends, all of the file or fewer, go out on the
connection. -/
def copyFileToConn (env : Env) (s : State) (file : List Byte) : State :=
  { s with conn := s.conn.map (fun c => { c with sent := c.sent ++ file.take (env.Copy file).1 }),
           trace := s.trace ++ [.connWrite (file.take (env.Copy file).1)] }

/-- The call `conn.CloseWrite()` with its result discarded: the write direction
is shut down when the call returns no error. -/
def CloseWrite (env : Env) (s : State) : State :=
  { s with conn := s.conn.map (fun c => { c with writeClosed := decide (env.CloseWrite = none) }),
           trace := s.trace ++ [.closeWrite] }

/-- The call `io.Copy(w, conn)`: everything still unread on the connection, up to
end-of-stream, is written to the response. -/
def copyConnToResponse (s : State) : State :=
  match s.conn with
  | none => s
  | some c =>
    { s with w := { s.w with status := some (s.w.status.getD StatusOK),
                             body := s.w.body ++ c.unread },
             conn := some { c with unread := [] },
             trace := s.trace ++ [.copyToResponse c.unread] }

/-- The call `conn.Close()`. -/
def Close (s : State) : State :=
  { s with conn := s.conn.map (fun c => { c with closed := true }),
           trace := s.trace ++ [.connClose] }

/-- The deferred `file.Close()`, run when the handler returns or panics. -/
def closeFile (s : State) : State :=
  { s with fileOpen := false, trace := s.trace ++ [.fileClose] }

/-- A runtime panic: nothing but the deferred calls runs after it. -/
def panic (s : State) : State :=
  { s with panicked := true, trace := s.trace ++ [.panic] }

end State

/-- A freshly dialed connection. -/
def Conn.new : Conn := ⟨[], false, [], false⟩

/-- Result of the connection step (main.go lines 43-61): the state, and `err`. -/
structure Dialed where
  state : State
  err : Option GoError

/-- Lines 43-61: resolve and dial according to `leptonUrl.Scheme`.  The
assignment `err = addrErr` is overwritten by the dial's result in both branches,
so `err` after the step is the dial's error (or the scheme error).  The branch
is on the scheme alone: the comment on line 46 speaks of a URL without host
being dialed as a UNIX socket, but a URL whose scheme is not `unix` is never
dialed that way. -/
def dial (cfg : Config) (env : Env) (s : State) : Dialed :=
  let u := cfg.leptonUrl
  if u.Scheme = "tcp" then
    let addr := (env.ResolveTCPAddr u.Scheme u.Host).1
    let s := s.emit (.resolve u.Scheme u.Host)
    let err := env.DialTCP u.Scheme addr
    let s := s.emit (.dial u.Scheme addr)
    ⟨if err = none then { s with conn := some Conn.new } else s, err⟩
  else if u.Scheme = "unix" then
    let addr := (env.ResolveUnixAddr u.Scheme u.Path).1
    let s := s.emit (.resolve u.Scheme u.Path)
    let err := env.DialUnix u.Scheme addr
    let s := s.emit (.dial u.Scheme addr)
    ⟨if err = none then { s with conn := some Conn.new } else s, err⟩
  else
    ⟨s, some "No valid URL scheme specified."⟩

/-- The error `Read` reports on a stream socket (`eofError` of package `net`):
a read of zero bytes without error into a non-empty buffer is the end of the
stream and is reported as `io.EOF`. -/
def eofError (n bufLen : Nat) (err : Option GoError) : Option GoError :=
  if n = 0 ∧ err = none ∧ bufLen ≠ 0 then some "EOF" else err

/-- The call `conn.Read(buf)` on a `*net.TCPConn` or `*net.UnixConn`: the first
read on the connection.  Returns the state, the buffer after the read,
`numRead` and `err`.  On a nil connection `Read` returns `EINVAL`. -/
def connRead (env : Env) (s : State) (buf : List Byte) : State × List Byte × Nat × Option GoError :=
  match s.conn with
  | none => (s, buf, 0, some "invalid argument")
  | some c =>
    let reply := env.codec c.sent
    let n := min reply.firstN (min buf.length reply.stream.length)
    ({ s with conn := some { c with unread := reply.stream.drop n },
              trace := s.trace ++ [.connRead n] },
     reply.stream.take n ++ buf.drop n, n, eofError n buf.length reply.firstErr)

/-- Result of the exchange step (main.go lines 68-79). -/
structure Exchanged where
  state : State
  firstReadBuffer : List Byte
  numRead : Nat
  err : Option GoError

/-- Lines 68-79: copy the file to the connection, half-close, first read into a
100-byte buffer; the results of the copy and of the half-close are discarded.
`err` enters as the (nil) result of the dial. -/
def exchange (cfg : Config) (env : Env) (s : State) (file : List Byte) (err : Option GoError) :
    Exchanged :=
  let firstReadBuffer : List Byte := List.replicate 100 0
  if cfg.leptonUrl.Scheme = "tcp" then
    let s := s.copyFileToConn env file
    let s := s.CloseWrite env
    let r := connRead env s firstReadBuffer
    ⟨r.1, r.2.1, r.2.2.1, r.2.2.2⟩
  else if cfg.leptonUrl.Scheme = "unix" then
    let s := s.copyFileToConn env file
    let s := s.CloseWrite env
    let r := connRead env s firstReadBuffer
    ⟨r.1, r.2.1, r.2.2.1, r.2.2.2⟩
  else
    ⟨s, firstReadBuffer, 0, err⟩

/-- Lines 88-102: content type, status 200, the first buffer, the rest of the
reply, close. -/
def relay (cfg : Config) (s : State) (r : Request) (firstReadBuffer : List Byte) : State :=
  let s :=
    if jpegExp.MatchString r.Path.data then s.Add "Content-Type" "image/lepton"
    else if lepExp.MatchString r.Path.data then s.Add "Content-Type" "image/jpeg"
    else s
  let s := s.WriteHeader StatusOK
  let s := s.Write firstReadBuffer
  if cfg.leptonUrl.Scheme = "tcp" then
    s.copyConnToResponse.Close
  else if cfg.leptonUrl.Scheme = "unix" then
    s.copyConnToResponse.Close
  else s

/-- The handler `leptonHandler.ServeHTTP` (main.go lines 30-105). -/
def ServeHTTP (cfg : Config) (env : Env) (w : ResponseWriter) (r : Request) : State :=
  let s : State := ⟨w, none, false, [], false⟩
  if r.Method = "GET" then
    let filePath := Join [cfg.root.data, r.Path.data]
    let s := s.emit (.openFile filePath)
    match env.Open filePath with
    | .error err =>
      ((s.WriteHeader StatusNotFound).WriteString err).emit .log
    | .ok file =>
      let s := { s with fileOpen := true }
      let d := dial cfg env s
      if d.err ≠ none then
        (((d.state.WriteHeader StatusBadGateway).WriteString "Couldn't connect to Lepton.").emit
          .log).closeFile
      else
        let x := exchange cfg env d.state file d.err
        if x.err ≠ none ∨ x.numRead = 0 then
          let s := x.state.WriteHeader StatusInternalServerError
          let s := s.WriteString "Lepton returned nothing or a TCP error occurred."
          -- log.Printf(..., numRead, err.Error())
          match x.err with
          | none => s.panic.closeFile
          | some _ => (s.emit .log).closeFile
        else
          (relay cfg x.state r x.firstReadBuffer).closeFile
  else s

/-! ## Vocabulary for the statements -/

/-- The state in which the connection step starts: the file is open, nothing
has been written. -/
def afterOpen (filePath : List Char) : State :=
  ⟨ResponseWriter.fresh, none, true, [.openFile filePath], false⟩

/-- The value of `err` after the connection step (lines 43-61). -/
def dialErr (cfg : Config) (env : Env) : Option GoError :=
  (dial cfg env (afterOpen [])).err

/-- The bytes of the opened file that `io.Copy` puts on the connection. -/
def sentBytes (env : Env) (file : List Byte) : List Byte :=
  file.take (env.Copy file).1

/-- The codec's reply on the connection of a request whose opened file has
contents `file`. -/
def replyTo (env : Env) (file : List Byte) : Reply :=
  env.codec (sentBytes env file)

/-- The `(numRead, err)` the first read returns on the connection of a request
whose opened file has contents `file`: at most `firstN` bytes, at most the 100
bytes of the buffer, at most what the codec sends; a zero-byte read without
error is reported as `io.EOF`. -/
def firstRead (env : Env) (file : List Byte) : Nat × Option GoError :=
  (min (replyTo env file).firstN (min 100 (replyTo env file).stream.length),
   eofError (min (replyTo env file).firstN (min 100 (replyTo env file).stream.length)) 100
     (replyTo env file).firstErr)

/-- The state in which the first read has just returned, for a request whose
file opened with contents `file` and whose connection was dialed. -/
def afterExchange (cfg : Config) (env : Env) (r : Request) (file : List Byte)
    (addr : Option Addr) (a : String) : State :=
  { w := ResponseWriter.fresh
    conn := some ⟨sentBytes env file, decide (env.CloseWrite = none),
      (replyTo env file).stream.drop (firstRead env file).1, false⟩
    fileOpen := true
    trace := [.openFile (Join [cfg.root.data, r.Path.data]),
              .resolve cfg.leptonUrl.Scheme a, .dial cfg.leptonUrl.Scheme addr,
              .connWrite (sentBytes env file), .closeWrite, .connRead (firstRead env file).1]
    panicked := false }

/-- The buffer after the first read: the bytes read, then what is left of the
100 zero bytes. -/
def bufferAfterRead (env : Env) (file : List Byte) : List Byte :=
  (replyTo env file).stream.take (firstRead env file).1
    ++ (List.replicate 100 0).drop (firstRead env file).1

/-- The header entries the relay step adds for a request path (lines 88-92). -/
def contentTypeHeader (path : List Char) : List (String × String) :=
  if jpegExp.MatchString path then [("Content-Type", "image/lepton")]
  else if lepExp.MatchString path then [("Content-Type", "image/jpeg")]
  else []

/-- The fixed body of the 500 response. -/
def badLeptonMsg : String := "Lepton returned nothing or a TCP error occurred."

/-- A sample configuration: the default root, a TCP codec endpoint. -/
def sampleCfg : Config := ⟨".", ⟨"tcp", "localhost:2402", ""⟩⟩

/-- A sample world: every file opens with contents `9 8 7`, every dial
succeeds, the copy to the connection and the half-close succeed, and the codec
sends `1 2 3`, all delivered by the first read. -/
def sampleEnv : Env where
  Open := fun _ => .ok [9, 8, 7]
  ResolveTCPAddr := fun _ a => (some a, none)
  ResolveUnixAddr := fun _ a => (some a, none)
  DialTCP := fun _ _ => none
  DialUnix := fun _ _ => none
  Copy := fun file => (file.length, none)
  CloseWrite := none
  codec := fun _ => ⟨[1, 2, 3], 3, none⟩

/-- The sample world with a codec that closes without sending: the first read
returns zero bytes and the end-of-stream error. -/
def eofEnv : Env := { sampleEnv with codec := fun _ => ⟨[], 0, some "EOF"⟩ }

/-- The sample world with a socket whose first read system call delivers zero
bytes and no error. -/
def zeroNilEnv : Env := { sampleEnv with codec := fun _ => ⟨[], 0, none⟩ }

/-- The sample world with a copy to the connection that breaks after the first
byte of the file, and a codec that replies all the same. -/
def shortCopyEnv : Env := { sampleEnv with Copy := fun _ => (1, some "write: broken pipe") }

/-- The sample request. -/
def sampleReq : Request := ⟨"GET", "/photo.jpg"⟩

/-- The sample world without any file. -/
def missingEnv : Env :=
  { sampleEnv with Open := fun _ => .error "open photo.jpg: no such file or directory" }

/-- A configuration that serves the directory `/srv/images`. -/
def imagesCfg : Config := ⟨"/srv/images", ⟨"tcp", "localhost:2402", ""⟩⟩

/-- A configuration with the empty string as root. -/
def emptyRootCfg : Config := ⟨"", ⟨"tcp", "localhost:2402", ""⟩⟩

/-! ## The handler: basic facts -/

/-- The error left by the connection step does not depend on the state it starts in. -/
theorem dial_err_eq (cfg : Config) (env : Env) (s : State) :
    (dial cfg env s).err = dialErr cfg env := by
  unfold dialErr dial
  by_cases h1 : cfg.leptonUrl.Scheme = "tcp"
  · simp [h1]
  · by_cases h2 : cfg.leptonUrl.Scheme = "unix"
    · simp [h2]
    · simp [h1, h2]

/-- A connection step without error happens under one of the two schemes. -/
theorem dialErr_none_scheme (cfg : Config) (env : Env) (h : dialErr cfg env = none) :
    cfg.leptonUrl.Scheme = "tcp" ∨ cfg.leptonUrl.Scheme = "unix" := by
  unfold dialErr dial at h
  by_cases h1 : cfg.leptonUrl.Scheme = "tcp"
  · exact Or.inl h1
  · by_cases h2 : cfg.leptonUrl.Scheme = "unix"
    · exact Or.inr h2
    · simp [h1, h2] at h

/-- After a connection step without error the state holds a fresh connection and
the trace has grown by one resolve and one dial. -/
theorem dial_ok_state (cfg : Config) (env : Env) (s : State) (h : dialErr cfg env = none) :
    ∃ addr a, (dial cfg env s).state =
      { s with conn := some Conn.new,
               trace := s.trace ++ [.resolve cfg.leptonUrl.Scheme a,
                                    .dial cfg.leptonUrl.Scheme addr] } := by
  have he := dial_err_eq cfg env s
  rw [h] at he
  unfold dial at he ⊢
  by_cases h1 : cfg.leptonUrl.Scheme = "tcp"
  · simp only [h1, if_true] at he ⊢
    refine ⟨(env.ResolveTCPAddr "tcp" cfg.leptonUrl.Host).1, cfg.leptonUrl.Host, ?_⟩
    simp [he, State.emit]
  · by_cases h2 : cfg.leptonUrl.Scheme = "unix"
    · simp only [h2, if_true] at he ⊢
      refine ⟨(env.ResolveUnixAddr "unix" cfg.leptonUrl.Path).1, cfg.leptonUrl.Path, ?_⟩
      have h3 : ¬ ("unix" = "tcp") := by decide
      simp only [h3, if_false] at he ⊢
      simp [he, State.emit]
    · simp [h1, h2] at he

/-- The exchange step on a state holding a connection that has sent nothing. -/
theorem exchange_ok (cfg : Config) (env : Env) (s : State) (file : List Byte)
    (err : Option GoError) (c : Conn) (hc : s.conn = some c) (hs : c.sent = [])
    (h : cfg.leptonUrl.Scheme = "tcp" ∨ cfg.leptonUrl.Scheme = "unix") :
    exchange cfg env s file err =
      ⟨{ s with conn := some { c with sent := sentBytes env file,
                                      writeClosed := decide (env.CloseWrite = none),
                                      unread := (replyTo env file).stream.drop (firstRead env file).1 },
                trace := s.trace ++ [.connWrite (sentBytes env file), .closeWrite,
                                     .connRead (firstRead env file).1] },
       (replyTo env file).stream.take (firstRead env file).1
         ++ (List.replicate 100 0).drop (firstRead env file).1,
       (firstRead env file).1, (firstRead env file).2⟩ := by
  have h3 : ¬ ("unix" = "tcp") := by decide
  rcases h with h | h <;>
    simp [exchange, h, h3, State.copyFileToConn, State.CloseWrite, connRead, hc, hs, firstRead,
      replyTo, sentBytes]

/-- The handler on a GET request whose file opens and whose dial succeeds. -/
theorem serve_dialed (cfg : Config) (env : Env) (r : Request) (file : List Byte)
    (hm : r.Method = "GET")
    (ho : env.Open (Join [cfg.root.data, r.Path.data]) = .ok file)
    (hd : dialErr cfg env = none) :
    ∃ addr a, ServeHTTP cfg env ResponseWriter.fresh r =
      if (firstRead env file).2 ≠ none ∨ (firstRead env file).1 = 0 then
        match (firstRead env file).2 with
        | none =>
          (((afterExchange cfg env r file addr a).WriteHeader StatusInternalServerError).WriteString
            "Lepton returned nothing or a TCP error occurred.").panic.closeFile
        | some _ =>
          ((((afterExchange cfg env r file addr a).WriteHeader StatusInternalServerError).WriteString
            "Lepton returned nothing or a TCP error occurred.").emit .log).closeFile
      else
        (relay cfg (afterExchange cfg env r file addr a) r (bufferAfterRead env file)).closeFile := by
  obtain ⟨addr, a, hst⟩ := dial_ok_state cfg env
    { (State.emit ⟨ResponseWriter.fresh, none, false, [], false⟩
        (.openFile (Join [cfg.root.data, r.Path.data]))) with fileOpen := true } hd
  refine ⟨addr, a, ?_⟩
  have hsch := dialErr_none_scheme cfg env hd
  unfold ServeHTTP
  simp only [hm, if_true, ho, dial_err_eq, hd, ne_eq, not_true_eq_false, if_false, hst]
  rw [exchange_ok cfg env _ file none Conn.new rfl rfl hsch]
  simp [afterExchange, bufferAfterRead, State.emit, Conn.new]

/-- After a failed connection step the state is unchanged but for the trace,
which has grown by resolve and dial events only, and by nothing at all when the
scheme is neither `tcp` nor `unix`. -/
theorem dial_fail_state (cfg : Config) (env : Env) (s : State) (e : GoError)
    (h : dialErr cfg env = some e) :
    ∃ tr, (dial cfg env s).state = { s with trace := s.trace ++ tr } ∧
      (∀ ev ∈ tr, (∃ n a, ev = Event.resolve n a) ∨ (∃ n a, ev = Event.dial n a)) ∧
      ((cfg.leptonUrl.Scheme ≠ "tcp" ∧ cfg.leptonUrl.Scheme ≠ "unix") → tr = []) := by
  have he := dial_err_eq cfg env s
  rw [h] at he
  unfold dial at he ⊢
  by_cases h1 : cfg.leptonUrl.Scheme = "tcp"
  · simp only [h1, if_true] at he ⊢
    refine ⟨[.resolve "tcp" cfg.leptonUrl.Host,
      .dial "tcp" (env.ResolveTCPAddr "tcp" cfg.leptonUrl.Host).1], ?_, ?_, ?_⟩
    · simp [he, State.emit]
    · intro ev hev
      simp only [List.mem_cons, List.mem_singleton, List.not_mem_nil, or_false] at hev
      rcases hev with hev | hev
      · exact Or.inl ⟨_, _, hev⟩
      · exact Or.inr ⟨_, _, hev⟩
    · intro hh
      exact absurd rfl hh.1
  · by_cases h2 : cfg.leptonUrl.Scheme = "unix"
    · have h3 : ¬ ("unix" = "tcp") := by decide
      simp only [h2, h3, if_true, if_false] at he ⊢
      refine ⟨[.resolve "unix" cfg.leptonUrl.Path,
        .dial "unix" (env.ResolveUnixAddr "unix" cfg.leptonUrl.Path).1], ?_, ?_, ?_⟩
      · simp [he, State.emit]
      · intro ev hev
        simp only [List.mem_cons, List.mem_singleton, List.not_mem_nil, or_false] at hev
        rcases hev with hev | hev
        · exact Or.inl ⟨_, _, hev⟩
        · exact Or.inr ⟨_, _, hev⟩
      · intro hh
        exact absurd rfl hh.2
    · refine ⟨[], ?_, ?_, ?_⟩
      · simp [h1, h2]
      · simp
      · intro _
        rfl

/-- The handler on a GET request whose file opens and whose connection step fails. -/
theorem serve_dial_failed (cfg : Config) (env : Env) (r : Request) (file : List Byte)
    (e : GoError) (hm : r.Method = "GET")
    (ho : env.Open (Join [cfg.root.data, r.Path.data]) = .ok file)
    (hd : dialErr cfg env = some e) :
    ∃ tr, ServeHTTP cfg env ResponseWriter.fresh r =
        { w := ⟨[], some 502, stringBytes "Couldn't connect to Lepton."⟩
          conn := none
          fileOpen := false
          trace := [.openFile (Join [cfg.root.data, r.Path.data])] ++ tr ++
            [.writeHeader 502, .write (stringBytes "Couldn't connect to Lepton."), .log, .fileClose]
          panicked := false } ∧
      (∀ ev ∈ tr, (∃ n a, ev = Event.resolve n a) ∨ (∃ n a, ev = Event.dial n a)) ∧
      ((cfg.leptonUrl.Scheme ≠ "tcp" ∧ cfg.leptonUrl.Scheme ≠ "unix") → tr = []) := by
  obtain ⟨tr, hst, htr, hnil⟩ := dial_fail_state cfg env
    { (State.emit ⟨ResponseWriter.fresh, none, false, [], false⟩
        (.openFile (Join [cfg.root.data, r.Path.data]))) with fileOpen := true } e hd
  refine ⟨tr, ?_, htr, hnil⟩
  unfold ServeHTTP
  simp only [hm, if_true, ho, dial_err_eq, hd, ne_eq, hst]
  simp [State.emit, State.WriteHeader, State.WriteString, State.Write, State.closeFile,
    ResponseWriter.fresh, StatusBadGateway]

/-- The relay step on a state that holds a connection, under either scheme. -/
theorem relay_eq (cfg : Config) (s : State) (r : Request) (buf : List Byte) (c : Conn)
    (hc : s.conn = some c)
    (h : cfg.leptonUrl.Scheme = "tcp" ∨ cfg.leptonUrl.Scheme = "unix") :
    relay cfg s r buf =
      { s with
        w := ⟨s.w.header ++ contentTypeHeader r.Path.data, some (s.w.status.getD 200),
              s.w.body ++ buf ++ c.unread⟩
        conn := some { c with unread := [], closed := true }
        trace := s.trace ++ (contentTypeHeader r.Path.data).map (fun kv => Event.addHeader kv.1 kv.2)
          ++ [.writeHeader 200, .write buf, .copyToResponse c.unread, .connClose] } := by
  have h3 : ¬ ("unix" = "tcp") := by decide
  unfold relay contentTypeHeader
  by_cases hj : jpegExp.MatchString r.Path.data = true
  · rcases h with h | h <;>
      simp [hj, h, h3, State.Add, State.WriteHeader, State.Write, State.copyConnToResponse,
        State.Close, hc, StatusOK]
  · by_cases hl : lepExp.MatchString r.Path.data = true
    · rcases h with h | h <;>
        simp [hj, hl, h, h3, State.Add, State.WriteHeader, State.Write,
          State.copyConnToResponse, State.Close, hc, StatusOK]
    · rcases h with h | h <;>
        simp [hj, hl, h, h3, State.WriteHeader, State.Write, State.copyConnToResponse,
          State.Close, hc, StatusOK]

/-- The final state of a request relayed with status 200. -/
theorem serve_ok (cfg : Config) (env : Env) (r : Request) (file : List Byte)
    (hm : r.Method = "GET")
    (ho : env.Open (Join [cfg.root.data, r.Path.data]) = .ok file)
    (hd : dialErr cfg env = none)
    (he : (firstRead env file).2 = none) (hn : (firstRead env file).1 ≠ 0) :
    ∃ addr a, ServeHTTP cfg env ResponseWriter.fresh r =
      { w := ⟨contentTypeHeader r.Path.data, some 200,
              bufferAfterRead env file ++ (replyTo env file).stream.drop (firstRead env file).1⟩
        conn := some ⟨sentBytes env file, decide (env.CloseWrite = none), [], true⟩
        fileOpen := false
        trace := [.openFile (Join [cfg.root.data, r.Path.data]),
                  .resolve cfg.leptonUrl.Scheme a, .dial cfg.leptonUrl.Scheme addr,
                  .connWrite (sentBytes env file), .closeWrite,
                  .connRead (firstRead env file).1]
          ++ (contentTypeHeader r.Path.data).map (fun kv => Event.addHeader kv.1 kv.2)
          ++ [.writeHeader 200, .write (bufferAfterRead env file),
              .copyToResponse ((replyTo env file).stream.drop (firstRead env file).1),
              .connClose, .fileClose]
        panicked := false } := by
  obtain ⟨addr, a, hs⟩ := serve_dialed cfg env r file hm ho hd
  refine ⟨addr, a, ?_⟩
  rw [hs, if_neg (by simp [he, hn])]
  rw [relay_eq cfg _ r _ _ rfl (dialErr_none_scheme cfg env hd)]
  simp [afterExchange, State.closeFile, ResponseWriter.fresh]

/-- The final state of a request whose first read failed or returned nothing. -/
theorem serve_bad_read (cfg : Config) (env : Env) (r : Request) (file : List Byte)
    (hm : r.Method = "GET")
    (ho : env.Open (Join [cfg.root.data, r.Path.data]) = .ok file)
    (hd : dialErr cfg env = none)
    (hbad : (firstRead env file).2 ≠ none ∨ (firstRead env file).1 = 0) :
    ∃ addr a, ServeHTTP cfg env ResponseWriter.fresh r =
      { w := ⟨[], some 500, stringBytes badLeptonMsg⟩
        conn := some ⟨sentBytes env file, decide (env.CloseWrite = none),
          (replyTo env file).stream.drop (firstRead env file).1, false⟩
        fileOpen := false
        trace := [.openFile (Join [cfg.root.data, r.Path.data]),
                  .resolve cfg.leptonUrl.Scheme a, .dial cfg.leptonUrl.Scheme addr,
                  .connWrite (sentBytes env file), .closeWrite,
                  .connRead (firstRead env file).1,
                  .writeHeader 500, .write (stringBytes badLeptonMsg),
                  if (firstRead env file).2 = none then .panic else .log, .fileClose]
        panicked := decide ((firstRead env file).2 = none) } := by
  obtain ⟨addr, a, hs⟩ := serve_dialed cfg env r file hm ho hd
  refine ⟨addr, a, ?_⟩
  rw [hs, if_pos hbad]
  cases he : (firstRead env file).2 with
  | none =>
    simp [State.WriteHeader, State.WriteString, State.Write, State.panic,
      State.closeFile, afterExchange, ResponseWriter.fresh, StatusInternalServerError,
      badLeptonMsg]
  | some e =>
    simp [State.WriteHeader, State.WriteString, State.Write, State.emit,
      State.closeFile, afterExchange, ResponseWriter.fresh, StatusInternalServerError,
      badLeptonMsg]

/-- The calls made on a GET request whose file cannot be opened. -/
theorem open_failure_trace (cfg : Config) (env : Env) (r : Request) (err : GoError)
    (hm : r.Method = "GET")
    (ho : env.Open (Join [cfg.root.data, r.Path.data]) = .error err) :
    (ServeHTTP cfg env ResponseWriter.fresh r).trace =
      [.openFile (Join [cfg.root.data, r.Path.data]), .writeHeader 404,
       .write (stringBytes err), .log] := by
  simp [ServeHTTP, hm, ho, State.emit, State.WriteHeader, State.WriteString, State.Write,
    StatusNotFound]

/-- Status 200 is reached only through the relay step: a GET whose file opened,
whose dial succeeded and whose first read returned bytes and no error. -/
theorem status_ok_inv (cfg : Config) (env : Env) (r : Request)
    (h : (ServeHTTP cfg env ResponseWriter.fresh r).w.status = some 200) :
    r.Method = "GET" ∧ ∃ file, env.Open (Join [cfg.root.data, r.Path.data]) = .ok file ∧
      dialErr cfg env = none ∧ (firstRead env file).2 = none ∧ (firstRead env file).1 ≠ 0 := by
  by_cases hm : r.Method = "GET"
  swap
  · simp [ServeHTTP, hm, ResponseWriter.fresh] at h
  refine ⟨hm, ?_⟩
  cases ho : env.Open (Join [cfg.root.data, r.Path.data]) with
  | error err =>
    simp [ServeHTTP, hm, ho, State.emit, State.WriteHeader, State.WriteString, State.Write,
      ResponseWriter.fresh, StatusNotFound] at h
  | ok file =>
    refine ⟨file, rfl, ?_⟩
    cases hd : dialErr cfg env with
    | some e =>
      obtain ⟨tr, hs, -, -⟩ := serve_dial_failed cfg env r file e hm ho hd
      rw [hs] at h
      simp at h
    | none =>
      obtain ⟨addr, a, hs⟩ := serve_dialed cfg env r file hm ho hd
      rw [hs] at h
      refine ⟨rfl, ?_⟩
      by_cases hbad : (firstRead env file).2 ≠ none ∨ (firstRead env file).1 = 0
      · rw [if_pos hbad] at h
        cases he : (firstRead env file).2 with
        | none =>
          simp [he, State.WriteHeader, State.WriteString, State.Write, State.panic,
            State.closeFile, afterExchange, ResponseWriter.fresh,
            StatusInternalServerError] at h
        | some e =>
          simp [he, State.WriteHeader, State.WriteString, State.Write, State.emit,
            State.closeFile, afterExchange, ResponseWriter.fresh,
            StatusInternalServerError] at h
      · simp only [not_or, ne_eq, not_not] at hbad
        exact hbad

/-! ## Claims about the handler -/

/-- C3: if a request is answered with status 200 and its path matches neither
`jpegExp` nor `lepExp`, the handler adds no header at all: the header map is
empty and no `Header().Add` call was made. -/
theorem no_content_type_without_pattern (cfg : Config) (env : Env) (r : Request)
    (h200 : (ServeHTTP cfg env ResponseWriter.fresh r).w.status = some 200)
    (hj : jpegExp.MatchString r.Path.data = false)
    (hl : lepExp.MatchString r.Path.data = false) :
    (ServeHTTP cfg env ResponseWriter.fresh r).w.header = [] ∧
    ∀ k v, Event.addHeader k v ∉ (ServeHTTP cfg env ResponseWriter.fresh r).trace := by
  obtain ⟨hm, file, ho, hd, he, hn⟩ := status_ok_inv cfg env r h200
  obtain ⟨addr, a, hs⟩ := serve_ok cfg env r file hm ho hd he hn
  rw [hs]
  simp [contentTypeHeader, hj, hl]

/-- Witness for C3: the request for `/notes.txt` in the sample world is answered
with status 200 and an empty header map. -/
theorem no_content_type_without_pattern_witness :
    (ServeHTTP sampleCfg sampleEnv ResponseWriter.fresh ⟨"GET", "/notes.txt"⟩).w.status =
      some 200 ∧
    (ServeHTTP sampleCfg sampleEnv ResponseWriter.fresh ⟨"GET", "/notes.txt"⟩).w.header = [] :=
  ⟨by decide, (no_content_type_without_pattern sampleCfg sampleEnv ⟨"GET", "/notes.txt"⟩
    (by decide) (by decide) (by decide)).1⟩

/-- C4: a GET request whose file cannot be opened is answered with status 404
and the open error's text as body, and the handler stops there: the only calls
it makes are the open, `WriteHeader(404)`, the body write and the log line, so
nothing is resolved or dialed and no connection exists. -/
theorem open_failure_is_404 (cfg : Config) (env : Env) (r : Request) (err : GoError)
    (hm : r.Method = "GET")
    (ho : env.Open (Join [cfg.root.data, r.Path.data]) = .error err) :
    (ServeHTTP cfg env ResponseWriter.fresh r).w = ⟨[], some 404, stringBytes err⟩ ∧
    (ServeHTTP cfg env ResponseWriter.fresh r).trace =
      [.openFile (Join [cfg.root.data, r.Path.data]), .writeHeader 404,
       .write (stringBytes err), .log] ∧
    (ServeHTTP cfg env ResponseWriter.fresh r).conn = none ∧
    (∀ n a, Event.resolve n a ∉ (ServeHTTP cfg env ResponseWriter.fresh r).trace) ∧
    (∀ n a, Event.dial n a ∉ (ServeHTTP cfg env ResponseWriter.fresh r).trace) := by
  simp [ServeHTTP, hm, ho, State.emit, State.WriteHeader, State.WriteString, State.Write,
    ResponseWriter.fresh, StatusNotFound]

/-- Witness for C4: the sample request in the world without files. -/
theorem open_failure_is_404_witness :
    (ServeHTTP sampleCfg missingEnv ResponseWriter.fresh sampleReq).w =
      ⟨[], some 404, stringBytes "open photo.jpg: no such file or directory"⟩ :=
  (open_failure_is_404 sampleCfg missingEnv sampleReq
    "open photo.jpg: no such file or directory" rfl rfl).1

/-- C5: for a GET request whose file opened, if the codec scheme is neither
`tcp` nor `unix`, or the dial under the configured scheme fails, the response
is status 502 with body "Couldn't connect to Lepton.", no connection exists,
nothing was written to a connection, and after the body write only the log
line and the deferred file close follow; under an unsupported scheme no
address is resolved and no dial is attempted. -/
theorem connect_failure_is_502 (cfg : Config) (env : Env) (r : Request) (file : List Byte)
    (hm : r.Method = "GET")
    (ho : env.Open (Join [cfg.root.data, r.Path.data]) = .ok file)
    (hfail : (cfg.leptonUrl.Scheme ≠ "tcp" ∧ cfg.leptonUrl.Scheme ≠ "unix") ∨
      (cfg.leptonUrl.Scheme = "tcp" ∧
        env.DialTCP "tcp" (env.ResolveTCPAddr "tcp" cfg.leptonUrl.Host).1 ≠ none) ∨
      (cfg.leptonUrl.Scheme = "unix" ∧
        env.DialUnix "unix" (env.ResolveUnixAddr "unix" cfg.leptonUrl.Path).1 ≠ none)) :
    (ServeHTTP cfg env ResponseWriter.fresh r).w =
      ⟨[], some 502, stringBytes "Couldn't connect to Lepton."⟩ ∧
    (ServeHTTP cfg env ResponseWriter.fresh r).conn = none ∧
    (∀ d, Event.connWrite d ∉ (ServeHTTP cfg env ResponseWriter.fresh r).trace) ∧
    (∃ tr, (ServeHTTP cfg env ResponseWriter.fresh r).trace =
      [.openFile (Join [cfg.root.data, r.Path.data])] ++ tr ++
        [.writeHeader 502, .write (stringBytes "Couldn't connect to Lepton."), .log,
         .fileClose] ∧
      ∀ ev ∈ tr, (∃ n a, ev = Event.resolve n a) ∨ (∃ n a, ev = Event.dial n a)) ∧
    ((cfg.leptonUrl.Scheme ≠ "tcp" ∧ cfg.leptonUrl.Scheme ≠ "unix") →
      (∀ n a, Event.dial n a ∉ (ServeHTTP cfg env ResponseWriter.fresh r).trace) ∧
      (∀ n a, Event.resolve n a ∉ (ServeHTTP cfg env ResponseWriter.fresh r).trace)) := by
  have hd : ∃ e, dialErr cfg env = some e := by
    have h3 : ¬ ("unix" = "tcp") := by decide
    unfold dialErr dial
    rcases hfail with ⟨h1, h2⟩ | ⟨h1, h2⟩ | ⟨h1, h2⟩
    · exact ⟨"No valid URL scheme specified.", by simp [h1, h2]⟩
    · simp only [h1, if_true]
      exact Option.ne_none_iff_exists'.mp h2
    · simp only [h1, h3, if_true, if_false]
      exact Option.ne_none_iff_exists'.mp h2
  obtain ⟨e, hd⟩ := hd
  obtain ⟨tr, hs, htr, hnil⟩ := serve_dial_failed cfg env r file e hm ho hd
  rw [hs]
  refine ⟨rfl, rfl, ?_, ⟨tr, rfl, htr⟩, ?_⟩
  · intro d hmem
    simp only [List.mem_append, List.mem_cons, List.mem_singleton, List.not_mem_nil,
      or_false, reduceCtorEq, false_or] at hmem
    rcases htr _ hmem with ⟨n, a, h⟩ | ⟨n, a, h⟩ <;> cases h
  · intro hh
    simp [hnil hh]

/-- Witness for C5: the sample request under the unsupported scheme `http`. -/
theorem connect_failure_is_502_witness :
    (ServeHTTP ⟨".", ⟨"http", "localhost:2402", ""⟩⟩ sampleEnv ResponseWriter.fresh sampleReq).w =
      ⟨[], some 502, stringBytes "Couldn't connect to Lepton."⟩ :=
  (connect_failure_is_502 ⟨".", ⟨"http", "localhost:2402", ""⟩⟩ sampleEnv sampleReq [9, 8, 7]
    rfl rfl (Or.inl ⟨by decide, by decide⟩)).1

/-- C6: for a GET request whose file opened and whose connection was dialed, a
first read that returns an error or zero bytes leads to status 500 with the
fixed body, an empty header map, no codec byte in the response, and nothing
after the body write but the log statement (or its panic) and the deferred
file close; and status 200 is written only when the first read returned at
least one byte and a nil error. -/
theorem bad_first_read_is_500 (cfg : Config) (env : Env) (r : Request) (file : List Byte)
    (hm : r.Method = "GET")
    (ho : env.Open (Join [cfg.root.data, r.Path.data]) = .ok file)
    (hd : dialErr cfg env = none) :
    (((firstRead env file).2 ≠ none ∨ (firstRead env file).1 = 0) →
      (ServeHTTP cfg env ResponseWriter.fresh r).w =
        ⟨[], some 500, stringBytes "Lepton returned nothing or a TCP error occurred."⟩ ∧
      (∀ k v, Event.addHeader k v ∉ (ServeHTTP cfg env ResponseWriter.fresh r).trace) ∧
      (∀ d, Event.copyToResponse d ∉ (ServeHTTP cfg env ResponseWriter.fresh r).trace) ∧
      (∀ d, Event.write d ∈ (ServeHTTP cfg env ResponseWriter.fresh r).trace →
        d = stringBytes "Lepton returned nothing or a TCP error occurred.") ∧
      ∃ pre last, (ServeHTTP cfg env ResponseWriter.fresh r).trace =
          pre ++ [.writeHeader 500,
            .write (stringBytes "Lepton returned nothing or a TCP error occurred."),
            last, .fileClose] ∧
        (last = .log ∨ last = .panic)) ∧
    ((ServeHTTP cfg env ResponseWriter.fresh r).w.status = some 200 →
      (firstRead env file).2 = none ∧ 1 ≤ (firstRead env file).1) := by
  constructor
  · intro hbad
    obtain ⟨addr, a, hs⟩ := serve_bad_read cfg env r file hm ho hd hbad
    rw [hs]
    refine ⟨rfl, ?_, ?_, ?_, ?_⟩
    · intro k v
      by_cases he : (firstRead env file).2 = none <;> simp [he]
    · intro d
      by_cases he : (firstRead env file).2 = none <;> simp [he]
    · intro d
      by_cases he : (firstRead env file).2 = none <;> simp [he, badLeptonMsg]
    · refine ⟨[.openFile (Join [cfg.root.data, r.Path.data]),
        .resolve cfg.leptonUrl.Scheme a, .dial cfg.leptonUrl.Scheme addr,
        .connWrite (sentBytes env file), .closeWrite, .connRead (firstRead env file).1],
        if (firstRead env file).2 = none then .panic else .log, ?_, ?_⟩
      · simp [badLeptonMsg]
      · by_cases he : (firstRead env file).2 = none <;> simp [he]
  · intro h200
    obtain ⟨-, file2, ho2, -, he, hn⟩ := status_ok_inv cfg env r h200
    rw [ho] at ho2
    cases ho2
    exact ⟨he, Nat.one_le_iff_ne_zero.mpr hn⟩

/-- Witness for C6: the sample request when the codec closes without sending. -/
theorem bad_first_read_is_500_witness :
    (ServeHTTP sampleCfg eofEnv ResponseWriter.fresh sampleReq).w =
      ⟨[], some 500, stringBytes "Lepton returned nothing or a TCP error occurred."⟩ :=
  ((bad_first_read_is_500 sampleCfg eofEnv sampleReq [9, 8, 7] rfl rfl rfl).1
    (Or.inl (by decide))).1

/-- C9 (counterexample): the copy of the file `9 8 7` to the connection breaks
after the first byte, the handler discards the error, half-closes and reads,
the codec replies, and the request is answered with status 200 although the
codec has received the single byte `9`, not the file's bytes. -/
theorem short_copy_still_200 :
    shortCopyEnv.Open (Join [sampleCfg.root.data, sampleReq.Path.data]) = .ok [9, 8, 7] ∧
    (ServeHTTP sampleCfg shortCopyEnv ResponseWriter.fresh sampleReq).w.status = some 200 ∧
    (ServeHTTP sampleCfg shortCopyEnv ResponseWriter.fresh sampleReq).conn =
      some ⟨[9], true, [], true⟩ ∧
    Event.connWrite [9, 8, 7] ∉
      (ServeHTTP sampleCfg shortCopyEnv ResponseWriter.fresh sampleReq).trace := by
  refine ⟨rfl, ?_⟩
  decide

/-- C9 (amended): for a GET request whose file opened and whose connection was
dialed (under `tcp` or `unix`), the handler's calls on the connection start
with the copy of the file, then the half-close, then the first read: no read
and no other write precedes them, and no further write follows.  The
connection has then received the part of the file the copy transferred, a
prefix of the file, which is the whole file whenever the copy transferred all
of it; and the write direction is shut down whenever `CloseWrite` returned no
error. -/
theorem write_halfclose_then_read (cfg : Config) (env : Env) (r : Request) (file : List Byte)
    (hm : r.Method = "GET")
    (ho : env.Open (Join [cfg.root.data, r.Path.data]) = .ok file)
    (hd : dialErr cfg env = none) :
    (cfg.leptonUrl.Scheme = "tcp" ∨ cfg.leptonUrl.Scheme = "unix") ∧
    (∃ c, (ServeHTTP cfg env ResponseWriter.fresh r).conn = some c ∧
      c.sent = file.take (env.Copy file).1 ∧ c.sent <+: file ∧
      (file.length ≤ (env.Copy file).1 → c.sent = file) ∧
      (env.CloseWrite = none → c.writeClosed = true)) ∧
    ∃ pre post, (ServeHTTP cfg env ResponseWriter.fresh r).trace =
        pre ++ [.connWrite (file.take (env.Copy file).1), .closeWrite,
          .connRead (firstRead env file).1] ++ post ∧
      (∀ ev ∈ pre, (∀ k, ev ≠ Event.connRead k) ∧ (∀ d, ev ≠ Event.connWrite d) ∧
        (∀ d, ev ≠ Event.copyToResponse d) ∧ ev ≠ Event.closeWrite) ∧
      (∀ ev ∈ post, (∀ k, ev ≠ Event.connRead k) ∧ (∀ d, ev ≠ Event.connWrite d)) := by
  refine ⟨dialErr_none_scheme cfg env hd, ?_⟩
  have hconn : ∀ (u : List Byte) (b : Bool),
      (⟨sentBytes env file, decide (env.CloseWrite = none), u, b⟩ : Conn).sent =
          file.take (env.Copy file).1 ∧
        (⟨sentBytes env file, decide (env.CloseWrite = none), u, b⟩ : Conn).sent <+: file ∧
        (file.length ≤ (env.Copy file).1 →
          (⟨sentBytes env file, decide (env.CloseWrite = none), u, b⟩ : Conn).sent = file) ∧
        (env.CloseWrite = none →
          (⟨sentBytes env file, decide (env.CloseWrite = none), u, b⟩ : Conn).writeClosed = true) := by
    intro u b
    refine ⟨rfl, List.take_prefix _ _, ?_, ?_⟩
    · intro hlen
      exact List.take_of_length_le hlen
    · intro hcw
      exact decide_eq_true hcw
  by_cases hbad : (firstRead env file).2 ≠ none ∨ (firstRead env file).1 = 0
  · obtain ⟨addr, a, hs⟩ := serve_bad_read cfg env r file hm ho hd hbad
    rw [hs]
    refine ⟨⟨_, rfl, hconn _ _⟩, [.openFile (Join [cfg.root.data, r.Path.data]),
        .resolve cfg.leptonUrl.Scheme a, .dial cfg.leptonUrl.Scheme addr],
      [.writeHeader 500, .write (stringBytes badLeptonMsg),
        if (firstRead env file).2 = none then .panic else .log, .fileClose], ?_, ?_, ?_⟩
    · simp [sentBytes]
    · simp
    · by_cases he : (firstRead env file).2 = none <;> simp [he]
  · simp only [not_or, ne_eq, not_not] at hbad
    obtain ⟨addr, a, hs⟩ := serve_ok cfg env r file hm ho hd hbad.1 hbad.2
    rw [hs]
    refine ⟨⟨_, rfl, hconn _ _⟩, [.openFile (Join [cfg.root.data, r.Path.data]),
        .resolve cfg.leptonUrl.Scheme a, .dial cfg.leptonUrl.Scheme addr],
      (contentTypeHeader r.Path.data).map (fun kv => Event.addHeader kv.1 kv.2)
        ++ [.writeHeader 200, .write (bufferAfterRead env file),
            .copyToResponse ((replyTo env file).stream.drop (firstRead env file).1),
            .connClose, .fileClose], ?_, ?_, ?_⟩
    · simp [sentBytes]
    · simp
    · intro ev hev
      simp only [List.mem_append, List.mem_map, List.mem_cons, List.mem_singleton,
        List.not_mem_nil, or_false] at hev
      rcases hev with ⟨kv, -, h⟩ | h | h | h | h | h <;> subst h <;> simp

/-- Witness for C9: the sample request under the `unix` scheme, where the copy
transfers the whole file. -/
theorem write_halfclose_then_read_witness :
    ∃ c, (ServeHTTP ⟨".", ⟨"unix", "", "/tmp/.leptonsock"⟩⟩ sampleEnv ResponseWriter.fresh
        sampleReq).conn = some c ∧ c.sent = [9, 8, 7] ∧ c.writeClosed = true := by
  obtain ⟨c, hc, -, -, hfull, hcw⟩ :=
    (write_halfclose_then_read ⟨".", ⟨"unix", "", "/tmp/.leptonsock"⟩⟩ sampleEnv sampleReq
      [9, 8, 7] rfl rfl rfl).2.1
  exact ⟨c, hc, hfull (by decide), hcw rfl⟩

/-- C1 (the code at a failing input): the codec sends the three bytes `1 2 3`,
the first read returns all three, the request is answered with status 200,
and the body is those three bytes followed by the 97 unused zero bytes of the
100-byte buffer: it differs from what the codec sent. -/
theorem first_buffer_written_whole :
    (sampleEnv.codec [9, 8, 7]).stream = [1, 2, 3] ∧
    firstRead sampleEnv [9, 8, 7] = (3, none) ∧
    (ServeHTTP sampleCfg sampleEnv ResponseWriter.fresh sampleReq).w.status = some 200 ∧
    (ServeHTTP sampleCfg sampleEnv ResponseWriter.fresh sampleReq).w.body =
      [1, 2, 3] ++ List.replicate 97 0 ∧
    (ServeHTTP sampleCfg sampleEnv ResponseWriter.fresh sampleReq).w.body ≠
      (sampleEnv.codec [9, 8, 7]).stream := by
  decide

/-- C7 (the code at a failing input): the codec closes without sending, the
first read returns zero bytes and an error, the request is answered with status
500, and the handler returns with the dialed connection not closed: `Close` is
never called on it. -/
theorem conn_left_open_on_500 :
    (ServeHTTP sampleCfg eofEnv ResponseWriter.fresh sampleReq).w.status = some 500 ∧
    (ServeHTTP sampleCfg eofEnv ResponseWriter.fresh sampleReq).conn =
      some ⟨[9, 8, 7], true, [], false⟩ ∧
    Event.connClose ∉ (ServeHTTP sampleCfg eofEnv ResponseWriter.fresh sampleReq).trace ∧
    (ServeHTTP sampleCfg eofEnv ResponseWriter.fresh sampleReq).panicked = false := by
  decide

/-- A first read of zero bytes carries a non-nil error. -/
theorem firstRead_zero_err (env : Env) (file : List Byte)
    (h : (firstRead env file).1 = 0) : (firstRead env file).2 ≠ none := by
  unfold firstRead at h ⊢
  simp only at h ⊢
  rw [h]
  unfold eofError
  by_cases he : (replyTo env file).firstErr = none <;> simp [he]

/-- C10: for every request and every outcome of the file open, the dial and
the first read on the connection (also when the read system call delivers zero
bytes and no error, which `Read` reports as `io.EOF`), the handler returns
without a panic: the first read never returns zero bytes with a nil error, so
`err` is non-nil whenever the log statement of the bad-response branch calls
`err.Error()`. -/
theorem serve_never_panics (cfg : Config) (env : Env) (r : Request) :
    (ServeHTTP cfg env ResponseWriter.fresh r).panicked = false ∧
    Event.panic ∉ (ServeHTTP cfg env ResponseWriter.fresh r).trace ∧
    ∀ file, (firstRead env file).1 ≠ 0 ∨ (firstRead env file).2 ≠ none := by
  have hread : ∀ file, (firstRead env file).1 ≠ 0 ∨ (firstRead env file).2 ≠ none := by
    intro file
    by_cases h : (firstRead env file).1 = 0
    · exact Or.inr (firstRead_zero_err env file h)
    · exact Or.inl h
  have key : (ServeHTTP cfg env ResponseWriter.fresh r).panicked = false ∧
      Event.panic ∉ (ServeHTTP cfg env ResponseWriter.fresh r).trace := by
    by_cases hm : r.Method = "GET"
    swap
    · simp [ServeHTTP, hm]
    cases ho : env.Open (Join [cfg.root.data, r.Path.data]) with
    | error err =>
      simp [ServeHTTP, hm, ho, State.emit, State.WriteHeader, State.WriteString, State.Write]
    | ok file =>
      cases hd : dialErr cfg env with
      | some e =>
        obtain ⟨tr, hs, htr, -⟩ := serve_dial_failed cfg env r file e hm ho hd
        rw [hs]
        refine ⟨rfl, ?_⟩
        intro hmem
        simp only [List.mem_append, List.mem_cons, List.mem_singleton, List.not_mem_nil,
          or_false, reduceCtorEq, false_or] at hmem
        rcases htr _ hmem with ⟨n, a, h⟩ | ⟨n, a, h⟩ <;> cases h
      | none =>
        by_cases hbad : (firstRead env file).2 ≠ none ∨ (firstRead env file).1 = 0
        · obtain ⟨addr, a, hs⟩ := serve_bad_read cfg env r file hm ho hd hbad
          have he : (firstRead env file).2 ≠ none := by
            rcases hbad with h | h
            · exact h
            · exact firstRead_zero_err env file h
          rw [hs]
          simp [he]
        · simp only [not_or, ne_eq, not_not] at hbad
          obtain ⟨addr, a, hs⟩ := serve_ok cfg env r file hm ho hd hbad.1 hbad.2
          rw [hs]
          simp
  exact ⟨key.1, key.2, hread⟩

/-- The sample request when the read system call delivers zero bytes and no
error: the first read returns `io.EOF`, the response is the 500 with the log
line, and nothing panics. -/
theorem zero_byte_read_is_eof :
    firstRead zeroNilEnv [9, 8, 7] = (0, some "EOF") ∧
    (ServeHTTP sampleCfg zeroNilEnv ResponseWriter.fresh sampleReq).w.status = some 500 ∧
    Event.log ∈ (ServeHTTP sampleCfg zeroNilEnv ResponseWriter.fresh sampleReq).trace ∧
    (ServeHTTP sampleCfg zeroNilEnv ResponseWriter.fresh sampleReq).panicked = false := by
  decide

/-- The codec URL `/tmp/.leptonsock` without scheme and host (scheme empty,
path `/tmp/.leptonsock`) is not dialed as a UNIX socket: the request is
answered with status 502 and no dial is made. -/
theorem hostless_url_not_dialed :
    (ServeHTTP ⟨".", ⟨"", "", "/tmp/.leptonsock"⟩⟩ sampleEnv ResponseWriter.fresh sampleReq).w.status =
      some 502 ∧
    (ServeHTTP ⟨".", ⟨"", "", "/tmp/.leptonsock"⟩⟩ sampleEnv ResponseWriter.fresh sampleReq).trace =
      [.openFile "photo.jpg".data, .writeHeader 502,
       .write (stringBytes "Couldn't connect to Lepton."), .log, .fileClose] := by
  decide

/-! ## What the relayed body and the connection look like in general -/

/-- Every response with status 200 has as body the bytes of the first read,
then the unused rest of the 100-byte buffer, then the rest of the codec's
stream. -/
theorem relayed_body (cfg : Config) (env : Env) (r : Request)
    (h200 : (ServeHTTP cfg env ResponseWriter.fresh r).w.status = some 200) :
    ∃ file, env.Open (Join [cfg.root.data, r.Path.data]) = .ok file ∧
      (ServeHTTP cfg env ResponseWriter.fresh r).w.body =
        (replyTo env file).stream.take (firstRead env file).1
          ++ List.replicate (100 - (firstRead env file).1) 0
          ++ (replyTo env file).stream.drop (firstRead env file).1 := by
  obtain ⟨hm, file, ho, hd, he, hn⟩ := status_ok_inv cfg env r h200
  obtain ⟨addr, a, hs⟩ := serve_ok cfg env r file hm ho hd he hn
  refine ⟨file, ho, ?_⟩
  rw [hs]
  show bufferAfterRead env file ++ _ = _
  unfold bufferAfterRead
  rw [List.drop_replicate]

/-- The body of a response with status 200 is the codec's stream exactly when
the first read filled the whole buffer. -/
theorem relayed_body_exact_iff (cfg : Config) (env : Env) (r : Request) (file : List Byte)
    (ho : env.Open (Join [cfg.root.data, r.Path.data]) = .ok file)
    (h200 : (ServeHTTP cfg env ResponseWriter.fresh r).w.status = some 200) :
    (ServeHTTP cfg env ResponseWriter.fresh r).w.body = (replyTo env file).stream ↔
      (firstRead env file).1 = 100 := by
  obtain ⟨file2, ho2, hb⟩ := relayed_body cfg env r h200
  rw [ho] at ho2
  cases ho2
  rw [hb]
  have hle : (firstRead env file).1 ≤ 100 := by
    unfold firstRead
    simp only
    omega
  have hlen := congrArg List.length
    (List.take_append_drop (firstRead env file).1 (replyTo env file).stream)
  constructor
  · intro h
    have h2 := congrArg List.length h
    simp only [List.length_append, List.length_replicate] at h2 hlen
    omega
  · intro h
    rw [h]
    simp

/-- After a bad first read the handler returns with the connection not closed. -/
theorem conn_open_after_bad_read (cfg : Config) (env : Env) (r : Request) (file : List Byte)
    (hm : r.Method = "GET")
    (ho : env.Open (Join [cfg.root.data, r.Path.data]) = .ok file)
    (hd : dialErr cfg env = none)
    (hbad : (firstRead env file).2 ≠ none ∨ (firstRead env file).1 = 0) :
    ∃ c, (ServeHTTP cfg env ResponseWriter.fresh r).conn = some c ∧ c.closed = false ∧
      Event.connClose ∉ (ServeHTTP cfg env ResponseWriter.fresh r).trace := by
  obtain ⟨addr, a, hs⟩ := serve_bad_read cfg env r file hm ho hd hbad
  rw [hs]
  refine ⟨_, rfl, rfl, ?_⟩
  by_cases he : (firstRead env file).2 = none <;> simp [he]

/-- After a relayed reply the handler returns with the connection closed. -/
theorem conn_closed_after_relay (cfg : Config) (env : Env) (r : Request)
    (h200 : (ServeHTTP cfg env ResponseWriter.fresh r).w.status = some 200) :
    ∃ c, (ServeHTTP cfg env ResponseWriter.fresh r).conn = some c ∧ c.closed = true := by
  obtain ⟨hm, file, ho, hd, he, hn⟩ := status_ok_inv cfg env r h200
  obtain ⟨addr, a, hs⟩ := serve_ok cfg env r file hm ho hd he hn
  rw [hs]
  exact ⟨_, rfl, rfl⟩

/-! ## The matcher agrees with the language semantics -/

namespace Regex

theorem nullable_iff (r : Regex) : r.nullable = true ↔ r.Lang [] := by
  induction r with
  | empty => simp [nullable, Lang]
  | eps => simp [nullable, Lang]
  | lit c => simp [nullable, Lang]
  | dot => simp [nullable, Lang]
  | cat a b iha ihb =>
    simp only [nullable, Lang, Bool.and_eq_true, iha, ihb]
    constructor
    · rintro ⟨h1, h2⟩
      exact ⟨[], [], rfl, h1, h2⟩
    · rintro ⟨u, v, h, h1, h2⟩
      have hu : u = [] := (List.append_eq_nil.mp h.symm).1
      have hv : v = [] := (List.append_eq_nil.mp h.symm).2
      subst hu hv
      exact ⟨h1, h2⟩
  | alt a b iha ihb => simp [nullable, Lang, iha, ihb]
  | star a _ =>
    simp only [nullable, Lang, true_iff]
    exact ⟨[], rfl, by simp⟩

/-- Unfolding one character of a starred expression. -/
theorem lang_star_cons (a : Regex) (c : Char) (s : List Char) :
    (star a).Lang (c :: s) ↔ ∃ u v, s = u ++ v ∧ a.Lang (c :: u) ∧ (star a).Lang v := by
  constructor
  · rintro ⟨L, hL, hall⟩
    cases L with
    | nil => simp at hL
    | cons w L =>
      have hw := hall w (List.mem_cons_self _ _)
      cases w with
      | nil => exact absurd rfl hw.1
      | cons d u =>
        simp only [List.flatten_cons, List.cons_append, List.cons.injEq] at hL
        obtain ⟨hcd, hs⟩ := hL
        subst hcd
        exact ⟨u, L.flatten, hs, hw.2, L, rfl, fun x hx => hall x (List.mem_cons_of_mem _ hx)⟩
  · rintro ⟨u, v, hs, hu, L, hv, hall⟩
    refine ⟨(c :: u) :: L, ?_, ?_⟩
    · simp [hs, hv]
    · intro x hx
      rcases List.mem_cons.mp hx with h | h
      · subst h
        exact ⟨by simp, hu⟩
      · exact hall x h

theorem deriv_iff (r : Regex) (c : Char) (s : List Char) :
    (r.deriv c).Lang s ↔ r.Lang (c :: s) := by
  induction r generalizing s with
  | empty => simp [deriv, Lang]
  | eps => simp [deriv, Lang]
  | lit d =>
    by_cases h : c = d
    · simp [deriv, Lang, h]
    · simp [deriv, Lang, h]
  | dot =>
    by_cases h : c = '\n'
    · simp only [deriv, h, if_true, Lang, false_iff]
      rintro ⟨d, hd, hcd⟩
      simp only [List.cons.injEq] at hcd
      exact hd hcd.1.symm
    · simp only [deriv, h, if_false, Lang]
      constructor
      · intro hs
        exact ⟨c, h, by rw [hs]⟩
      · rintro ⟨d, -, hd⟩
        simp only [List.cons.injEq] at hd
        exact hd.2
  | cat a b iha ihb =>
    have key : (cat a b).Lang (c :: s) ↔
        (∃ u v, s = u ++ v ∧ a.Lang (c :: u) ∧ b.Lang v) ∨ (a.Lang [] ∧ b.Lang (c :: s)) := by
      constructor
      · rintro ⟨u, v, h, hu, hv⟩
        cases u with
        | nil =>
          simp only [List.nil_append] at h
          subst h
          exact Or.inr ⟨hu, hv⟩
        | cons d u =>
          simp only [List.cons_append, List.cons.injEq] at h
          obtain ⟨hcd, hs⟩ := h
          subst hcd
          exact Or.inl ⟨u, v, hs, hu, hv⟩
      · rintro (⟨u, v, h, hu, hv⟩ | ⟨hu, hv⟩)
        · exact ⟨c :: u, v, by simp [h], hu, hv⟩
        · exact ⟨[], c :: s, rfl, hu, hv⟩
    rw [key]
    by_cases hn : a.nullable = true
    · simp only [deriv, hn, if_true, Lang, iha, ihb, ← nullable_iff, true_and]
    · have hn2 : ¬ a.Lang [] := fun h => hn ((nullable_iff a).mpr h)
      simp only [deriv, hn, Lang, iha, hn2, false_and, or_false]
  | alt a b iha ihb => simp [deriv, Lang, iha, ihb]
  | star a iha =>
    rw [lang_star_cons]
    simp only [deriv, Lang, iha]

theorem fullMatch_iff (r : Regex) (s : List Char) : r.fullMatch s = true ↔ r.Lang s := by
  unfold fullMatch
  induction s generalizing r with
  | nil => simpa using nullable_iff r
  | cons c s ih =>
    rw [List.foldl_cons, ih, deriv_iff]

theorem lang_cat (a b : Regex) (s : List Char) :
    (cat a b).Lang s ↔ ∃ u v, s = u ++ v ∧ a.Lang u ∧ b.Lang v := Iff.rfl

theorem lang_lit (c : Char) (s : List Char) : (lit c).Lang s ↔ s = [c] := Iff.rfl

theorem lang_opt (a : Regex) (s : List Char) : (opt a).Lang s ↔ a.Lang s ∨ s = [] := Iff.rfl

/-- The texts matched by `.*` are those without a newline. -/
theorem lang_star_dot (s : List Char) : (star dot).Lang s ↔ '\n' ∉ s := by
  induction s with
  | nil =>
    simp only [List.not_mem_nil, not_false_eq_true, iff_true]
    exact ⟨[], rfl, by simp⟩
  | cons c s ih =>
    rw [lang_star_cons]
    constructor
    · rintro ⟨u, v, hs, ⟨d, hd, hcu⟩, hv⟩
      simp only [List.cons.injEq] at hcu
      obtain ⟨hcd, hu⟩ := hcu
      subst hcd hu
      simp only [List.nil_append] at hs
      subst hs
      simp only [List.mem_cons, not_or]
      exact ⟨fun h => hd h.symm, ih.mp hv⟩
    · intro h
      simp only [List.mem_cons, not_or] at h
      exact ⟨[], s, rfl, ⟨c, fun hc => h.1 hc.symm, rfl⟩, ih.mpr h.2⟩

end Regex

/-- The texts `jpegExp` matches: a newline-free text followed by `.jpg` or `.jpeg`. -/
theorem jpegExp_match_iff (s : List Char) :
    jpegExp.MatchString s = true ↔
      ∃ pre, '\n' ∉ pre ∧ (s = pre ++ ".jpg".data ∨ s = pre ++ ".jpeg".data) := by
  unfold Regexp.MatchString jpegExp
  rw [Regex.fullMatch_iff]
  simp only [Regex.lang_cat, Regex.lang_lit, Regex.lang_opt, Regex.lang_star_dot]
  constructor
  · rintro ⟨pre, v, hs, hpre, a, b, hv, ha, a2, b2, hb, ha2, a3, b3, hb2, ha3, a4, b4, hb3,
      ha4, hb4⟩
    refine ⟨pre, hpre, ?_⟩
    subst hs hv ha hb ha2 hb2 ha3 hb3 hb4
    rcases ha4 with h | h
    · right
      subst h
      rfl
    · left
      subst h
      rfl
  · rintro ⟨pre, hpre, h | h⟩
    · exact ⟨pre, _, h, hpre, ['.'], ['j', 'p', 'g'], rfl, rfl, ['j'], ['p', 'g'], rfl, rfl,
        ['p'], ['g'], rfl, rfl, [], ['g'], rfl, Or.inr rfl, rfl⟩
    · exact ⟨pre, _, h, hpre, ['.'], ['j', 'p', 'e', 'g'], rfl, rfl, ['j'], ['p', 'e', 'g'],
        rfl, rfl, ['p'], ['e', 'g'], rfl, rfl, ['e'], ['g'], rfl, Or.inl rfl, rfl⟩

/-- The texts `lepExp` matches: a newline-free text followed by `.lep`. -/
theorem lepExp_match_iff (s : List Char) :
    lepExp.MatchString s = true ↔ ∃ pre, '\n' ∉ pre ∧ s = pre ++ ".lep".data := by
  unfold Regexp.MatchString lepExp
  rw [Regex.fullMatch_iff]
  simp only [Regex.lang_cat, Regex.lang_lit, Regex.lang_star_dot]
  constructor
  · rintro ⟨pre, v, hs, hpre, a, b, hv, ha, a2, b2, hb, ha2, a3, b3, hb2, ha3, hb3⟩
    refine ⟨pre, hpre, ?_⟩
    subst hs hv ha hb ha2 hb2 ha3 hb3
    rfl
  · rintro ⟨pre, hpre, h⟩
    exact ⟨pre, _, h, hpre, ['.'], ['l', 'e', 'p'], rfl, rfl, ['l'], ['e', 'p'], rfl, rfl,
      ['e'], ['p'], rfl, rfl, rfl⟩

/-- A text ending in `.lep` is not matched by `jpegExp`. -/
theorem jpegExp_not_lep (pre : List Char) : jpegExp.MatchString (pre ++ ".lep".data) = false := by
  rw [Bool.eq_false_iff]
  intro h
  obtain ⟨p, -, h | h⟩ := (jpegExp_match_iff _).mp h
  · have := congrArg List.getLast? h
    simp at this
  · have := congrArg List.getLast? h
    simp at this

/-- C2 (counterexample): the GET request for the path `/a`, newline, `.jpg` is
answered with status 200 although its path ends in `.jpg`, and the response has
no `Content-Type` header. -/
theorem content_type_newline_counterexample :
    (ServeHTTP sampleCfg sampleEnv ResponseWriter.fresh ⟨"GET", "/a\n.jpg"⟩).w.status = some 200 ∧
    (⟨"GET", "/a\n.jpg"⟩ : Request).Path.data = "/a\n".data ++ ".jpg".data ∧
    (ServeHTTP sampleCfg sampleEnv ResponseWriter.fresh ⟨"GET", "/a\n.jpg"⟩).w.header = [] ∧
    (ServeHTTP sampleCfg sampleEnv ResponseWriter.fresh ⟨"GET", "/a\n.jpg"⟩).w.header ≠
      [("Content-Type", "image/lepton")] := by
  decide

/-- C2 (amended): for every request answered with status 200 whose path is a
newline-free text followed by a suffix: if the suffix is `.jpg` or `.jpeg` the
header map is exactly `Content-Type: image/lepton`, and if it is `.lep` the
header map is exactly `Content-Type: image/jpeg`. -/
theorem content_type_by_suffix (cfg : Config) (env : Env) (r : Request) (pre : List Char)
    (h200 : (ServeHTTP cfg env ResponseWriter.fresh r).w.status = some 200)
    (hpre : '\n' ∉ pre) :
    ((r.Path.data = pre ++ ".jpg".data ∨ r.Path.data = pre ++ ".jpeg".data) →
      (ServeHTTP cfg env ResponseWriter.fresh r).w.header = [("Content-Type", "image/lepton")]) ∧
    (r.Path.data = pre ++ ".lep".data →
      (ServeHTTP cfg env ResponseWriter.fresh r).w.header = [("Content-Type", "image/jpeg")]) := by
  obtain ⟨hm, file, ho, hd, he, hn⟩ := status_ok_inv cfg env r h200
  obtain ⟨addr, a, hs⟩ := serve_ok cfg env r file hm ho hd he hn
  rw [hs]
  constructor
  · intro hsuf
    have hj : jpegExp.MatchString r.Path.data = true :=
      (jpegExp_match_iff _).mpr ⟨pre, hpre, hsuf⟩
    simp [contentTypeHeader, hj]
  · intro hsuf
    have hj : jpegExp.MatchString r.Path.data = false := by
      rw [hsuf]
      exact jpegExp_not_lep pre
    have hl : lepExp.MatchString r.Path.data = true :=
      (lepExp_match_iff _).mpr ⟨pre, hpre, hsuf⟩
    simp [contentTypeHeader, hj, hl]

/-- Witness for C2: the requests for `/photo.lep` and `/photo.jpg` in the sample world. -/
theorem content_type_by_suffix_witness :
    (ServeHTTP sampleCfg sampleEnv ResponseWriter.fresh ⟨"GET", "/photo.lep"⟩).w.header =
      [("Content-Type", "image/jpeg")] ∧
    (ServeHTTP sampleCfg sampleEnv ResponseWriter.fresh ⟨"GET", "/photo.jpg"⟩).w.header =
      [("Content-Type", "image/lepton")] :=
  ⟨(content_type_by_suffix sampleCfg sampleEnv ⟨"GET", "/photo.lep"⟩ "/photo".data
      (by decide) (by decide)).2 rfl,
   (content_type_by_suffix sampleCfg sampleEnv ⟨"GET", "/photo.jpg"⟩ "/photo".data
      (by decide) (by decide)).1 (Or.inl rfl)⟩

/-! ## `path.Clean`: the loop -/

theorem takeWhile_append_stop (p : Char → Bool) (l : List Char) (x : Char) (b : List Char)
    (hx : p x = false) : (l ++ x :: b).takeWhile p = l.takeWhile p := by
  induction l with
  | nil => simp [List.takeWhile_cons, hx]
  | cons a l ih =>
    by_cases ha : p a = true
    · simp [List.takeWhile_cons, ha, ih]
    · simp [List.takeWhile_cons, ha]

theorem dropWhile_append_stop (p : Char → Bool) (l : List Char) (x : Char) (b : List Char)
    (hx : p x = false) : (l ++ x :: b).dropWhile p = l.dropWhile p ++ x :: b := by
  induction l with
  | nil => simp [List.dropWhile_cons, hx]
  | cons a l ih =>
    by_cases ha : p a = true
    · simp [List.dropWhile_cons, ha, ih]
    · simp [List.dropWhile_cons, ha]

theorem cleanStep_slash (rooted : Bool) (rest out : List Char) (dd : Nat) :
    cleanStep rooted '/' rest out dd = (rest, out, dd) := by
  unfold cleanStep
  rw [if_pos rfl]

theorem cleanStep_dot (rooted : Bool) (c : Char) (rest out : List Char) (dd : Nat)
    (h1 : c ≠ '/') (h2 : isDot c rest) :
    cleanStep rooted c rest out dd = (rest, out, dd) := by
  unfold cleanStep
  rw [if_neg h1, if_pos h2]

theorem cleanStep_dotdot (rooted : Bool) (c : Char) (rest out : List Char) (dd : Nat)
    (h1 : c ≠ '/') (h2 : ¬ isDot c rest) (h3 : isDotDot c rest) :
    ∃ out1 dd1, cleanStep rooted c rest out dd = (rest.tail, out1, dd1) ∧
      (out.length > dd → out1 = out.take (backtrack out dd (out.length - 1)) ∧ dd1 = dd) ∧
      (¬ out.length > dd → rooted = true → out1 = out ∧ dd1 = dd) := by
  unfold cleanStep
  rw [if_neg h1, if_neg h2, if_pos h3]
  by_cases h4 : out.length > dd
  · rw [if_pos h4]
    exact ⟨_, _, rfl, fun _ => ⟨rfl, rfl⟩, fun h => absurd h4 h⟩
  · rw [if_neg h4]
    by_cases h5 : ¬ rooted = true
    · rw [if_pos h5]
      exact ⟨_, _, rfl, fun h => absurd h h4, fun _ h => absurd h h5⟩
    · rw [if_neg h5]
      exact ⟨_, _, rfl, fun h => absurd h h4, fun _ _ => ⟨rfl, rfl⟩⟩

theorem cleanStep_elem (rooted : Bool) (c : Char) (rest out : List Char) (dd : Nat)
    (h1 : c ≠ '/') (h2 : ¬ isDot c rest) (h3 : ¬ isDotDot c rest) :
    cleanStep rooted c rest out dd =
      (rest.dropWhile (· ≠ '/'),
        (if (rooted ∧ out.length ≠ 1) ∨ (¬ rooted ∧ out.length ≠ 0) then out ++ ['/'] else out)
          ++ c :: rest.takeWhile (· ≠ '/'),
        dd) := by
  unfold cleanStep
  rw [if_neg h1, if_neg h2, if_neg h3]
  have hc : (decide (c ≠ '/')) = true := by simpa using h1
  simp only [List.dropWhile_cons, List.takeWhile_cons, hc, if_true]

/-- Every iteration consumes at least the character it looks at. -/
theorem cleanStep_length (rooted : Bool) (c : Char) (rest out : List Char) (dd : Nat) :
    (cleanStep rooted c rest out dd).1.length ≤ rest.length := by
  by_cases h1 : c = '/'
  · subst h1
    rw [cleanStep_slash]
  · by_cases h2 : isDot c rest
    · rw [cleanStep_dot rooted c rest out dd h1 h2]
    · by_cases h3 : isDotDot c rest
      · obtain ⟨out1, dd1, h, -, -⟩ := cleanStep_dotdot rooted c rest out dd h1 h2 h3
        rw [h]
        simp
      · rw [cleanStep_elem rooted c rest out dd h1 h2 h3]
        exact (List.dropWhile_suffix _).length_le

/-- The loop does not depend on the iteration bound once it covers the path. -/
theorem cleanLoop_fuel (rooted : Bool) (f1 f2 : Nat) (p out : List Char) (dd : Nat)
    (h1 : p.length ≤ f1) (h2 : p.length ≤ f2) :
    cleanLoop rooted f1 p out dd = cleanLoop rooted f2 p out dd := by
  induction f1 generalizing f2 p out dd with
  | zero =>
    have hp : p = [] := List.length_eq_zero.mp (Nat.le_zero.mp h1)
    subst hp
    cases f2 <;> rfl
  | succ f1 ih =>
    cases p with
    | nil => cases f2 <;> rfl
    | cons c rest =>
      cases f2 with
      | zero => simp at h2
      | succ f2 =>
        simp only [cleanLoop]
        have hl := cleanStep_length rooted c rest out dd
        simp only [List.length_cons, Nat.add_le_add_iff_right] at h1 h2
        exact ih f2 _ _ _ (le_trans hl h1) (le_trans hl h2)

theorem isDot_append (c : Char) (rest b : List Char) :
    isDot c (rest ++ '/' :: b) ↔ isDot c rest := by
  cases rest <;> simp [isDot]

theorem isDotDot_append (c : Char) (rest b : List Char) :
    isDotDot c (rest ++ '/' :: b) ↔ isDotDot c rest := by
  cases rest with
  | nil => simp [isDotDot]
  | cons d r2 => cases r2 <;> simp [isDotDot]

/-- An iteration only looks ahead as far as the next `/`. -/
theorem cleanStep_append (rooted : Bool) (c : Char) (rest out b : List Char) (dd : Nat) :
    cleanStep rooted c (rest ++ '/' :: b) out dd =
      ((cleanStep rooted c rest out dd).1 ++ '/' :: b, (cleanStep rooted c rest out dd).2.1,
        (cleanStep rooted c rest out dd).2.2) := by
  by_cases h1 : c = '/'
  · subst h1
    rw [cleanStep_slash, cleanStep_slash]
  · by_cases h2 : isDot c rest
    · rw [cleanStep_dot rooted c rest out dd h1 h2,
        cleanStep_dot rooted c _ out dd h1 ((isDot_append c rest b).mpr h2)]
    · have h2' : ¬ isDot c (rest ++ '/' :: b) := fun h => h2 ((isDot_append c rest b).mp h)
      by_cases h3 : isDotDot c rest
      · have h3' : isDotDot c (rest ++ '/' :: b) := (isDotDot_append c rest b).mpr h3
        have ht : (rest ++ '/' :: b).tail = rest.tail ++ '/' :: b := by
          cases rest with
          | nil => simp [isDotDot] at h3
          | cons d r2 => rfl
        unfold cleanStep
        rw [if_neg h1, if_neg h2, if_pos h3, if_neg h1, if_neg h2', if_pos h3', ht]
        split_ifs <;> rfl
      · have h3' : ¬ isDotDot c (rest ++ '/' :: b) :=
          fun h => h3 ((isDotDot_append c rest b).mp h)
        have hs : (decide ('/' ≠ '/')) = false := by decide
        rw [cleanStep_elem rooted c rest out dd h1 h2 h3,
          cleanStep_elem rooted c _ out dd h1 h2' h3',
          takeWhile_append_stop _ _ _ _ hs, dropWhile_append_stop _ _ _ _ hs]

theorem cleanLoop_nil (rooted : Bool) (f : Nat) (out : List Char) (dd : Nat) :
    cleanLoop rooted f [] out dd = (out, dd) := by
  cases f <;> rfl

theorem cleanLoop_cons (rooted : Bool) (f : Nat) (c : Char) (rest out : List Char) (dd : Nat) :
    cleanLoop rooted (f + 1) (c :: rest) out dd =
      cleanLoop rooted f (cleanStep rooted c rest out dd).1
        (cleanStep rooted c rest out dd).2.1 (cleanStep rooted c rest out dd).2.2 := rfl

/-- Reading `a`, a `/` and `b` is reading `a` and then `b`. -/
theorem cleanLoop_append (rooted : Bool) (f : Nat) (a b out : List Char) (dd : Nat)
    (hf : a.length + 1 + b.length ≤ f) :
    cleanLoop rooted f (a ++ '/' :: b) out dd =
      cleanLoop rooted b.length b (cleanLoop rooted a.length a out dd).1
        (cleanLoop rooted a.length a out dd).2 := by
  induction f generalizing a out dd with
  | zero => omega
  | succ f ih =>
    cases a with
    | nil =>
      simp only [List.length_nil] at hf
      rw [List.nil_append, cleanLoop_cons, cleanStep_slash, cleanLoop_nil]
      exact cleanLoop_fuel rooted f b.length b out dd (by omega) le_rfl
    | cons c rest =>
      have hl := cleanStep_length rooted c rest out dd
      simp only [List.length_cons] at hf
      rw [List.cons_append, cleanLoop_cons, cleanStep_append, List.length_cons, cleanLoop_cons,
        ih _ _ _ (by omega), cleanLoop_fuel rooted rest.length _ _ _ _ hl le_rfl]

/-! ## The elements of a path -/

theorem segments_cons_slash (rest : List Char) :
    segments ('/' :: rest) = [] :: segments rest := by
  simp [segments]

/-- The elements of a path: its first element, then those after the first `/`. -/
theorem segments_eq (p : List Char) :
    segments p = p.takeWhile (· ≠ '/') :: restSegments (p.dropWhile (· ≠ '/')) := by
  induction p with
  | nil => rfl
  | cons c cs ih =>
    by_cases h : c = '/'
    · subst h
      simp [segments, restSegments]
    · have hc : (decide (c ≠ '/')) = true := by simpa using h
      simp only [segments, if_neg h, List.takeWhile_cons, List.dropWhile_cons, hc, if_true]
      rw [ih]

theorem segments_cons_ne (c : Char) (rest : List Char) (h : c ≠ '/') :
    segments (c :: rest) =
      (c :: rest.takeWhile (· ≠ '/')) :: restSegments (rest.dropWhile (· ≠ '/')) := by
  have hc : (decide (c ≠ '/')) = true := by simpa using h
  rw [segments_eq]
  simp only [List.takeWhile_cons, List.dropWhile_cons, hc, if_true]

/-- What is left after an element starts with `/` or is empty. -/
theorem segments_dropWhile (rest : List Char) :
    segments (rest.dropWhile (· ≠ '/')) = [] :: restSegments (rest.dropWhile (· ≠ '/')) := by
  induction rest with
  | nil => rfl
  | cons c cs ih =>
    by_cases h : c = '/'
    · subst h
      simp [segments, restSegments]
    · have hc : (decide (c ≠ '/')) = true := by simpa using h
      simp only [List.dropWhile_cons, hc, if_true]
      exact ih

theorem isDot_split (c : Char) (rest : List Char) (h : isDot c rest) :
    rest.takeWhile (· ≠ '/') = [] ∧ rest.dropWhile (· ≠ '/') = rest := by
  rcases h.2 with h | h
  · subst h
    exact ⟨rfl, rfl⟩
  · cases rest with
    | nil => exact ⟨rfl, rfl⟩
    | cons d r2 =>
      simp only [List.head?_cons, Option.some.injEq] at h
      subst h
      simp

theorem isDotDot_takeWhile (c : Char) (rest : List Char) (h : isDotDot c rest) :
    c :: rest.takeWhile (· ≠ '/') = ['.', '.'] := by
  obtain ⟨hc, hh, ht⟩ := h
  cases rest with
  | nil => simp at hh
  | cons d r2 =>
    simp only [List.head?_cons, Option.some.injEq] at hh
    subst hc hh
    simp only [List.tail_cons] at ht
    have : r2.takeWhile (· ≠ '/') = [] := by
      rcases ht with ht | ht
      · subst ht
        rfl
      · cases r2 with
        | nil => rfl
        | cons e r3 =>
          simp only [List.head?_cons, Option.some.injEq] at ht
          subst ht
          simp
    have hdot : (decide ('.' ≠ '/')) = true := by decide
    simp only [List.takeWhile_cons, hdot, if_true, this]

theorem takeWhile_nil_iff (l : List Char) :
    l.takeWhile (· ≠ '/') = [] ↔ (l = [] ∨ l.head? = some '/') := by
  cases l with
  | nil => simp
  | cons d r =>
    by_cases hd : d = '/'
    · simp [hd]
    · simp [List.takeWhile_cons, hd]

/-- A first element that reads `..` is the `..` case of the `switch`. -/
theorem isDotDot_of_takeWhile (c : Char) (rest : List Char)
    (h : c :: rest.takeWhile (· ≠ '/') = ['.', '.']) : isDotDot c rest := by
  simp only [List.cons.injEq] at h
  obtain ⟨hc, ht⟩ := h
  cases rest with
  | nil => simp at ht
  | cons d r2 =>
    by_cases hd : d = '/'
    · simp [hd] at ht
    · have hdd : (decide (d ≠ '/')) = true := by simpa using hd
      simp only [List.takeWhile_cons, hdd, if_true, List.cons.injEq] at ht
      exact ⟨hc, by simp [ht.1], by simpa using (takeWhile_nil_iff r2).mp ht.2⟩

/-- A first element that reads `.` is the `.` case of the `switch`. -/
theorem isDot_of_takeWhile (c : Char) (rest : List Char)
    (h : c :: rest.takeWhile (· ≠ '/') = ['.']) : isDot c rest := by
  simp only [List.cons.injEq] at h
  exact ⟨h.1, (takeWhile_nil_iff rest).mp h.2⟩

/-- After a `..` element the rest of the path has the remaining elements. -/
theorem isDotDot_tail (c : Char) (rest : List Char) (h : isDotDot c rest) :
    segments rest.tail = [] :: restSegments (rest.dropWhile (· ≠ '/')) := by
  obtain ⟨-, hh, ht⟩ := h
  cases rest with
  | nil => simp at hh
  | cons d r2 =>
    simp only [List.head?_cons, Option.some.injEq] at hh
    subst hh
    simp only [List.tail_cons] at ht ⊢
    have hdot : (decide ('.' ≠ '/')) = true := by decide
    have hdw : r2.dropWhile (· ≠ '/') = r2 := (isDot_split '.' r2 ⟨rfl, ht⟩).2
    simp only [List.dropWhile_cons, hdot, if_true]
    have := segments_dropWhile r2
    rw [hdw] at this ⊢
    exact this

theorem takeWhile_no_slash (l : List Char) : '/' ∉ l.takeWhile (· ≠ '/') := by
  intro h
  have := List.mem_takeWhile_imp h
  simp at this

/-! ## Backtracking over the last element of the buffer -/

/-- The backtracking loop stops at `b` when it starts at or after `b`, no
slash lies in between, and `b` is the `dotdot` mark or the position of a slash. -/
theorem backtrack_eq (out : List Char) (dd b w : Nat) (hb : dd ≤ b) (hbw : b ≤ w)
    (hstop : b = dd ∨ out.get? b = some '/')
    (hfree : ∀ i, b < i → i ≤ w → out.get? i ≠ some '/') :
    backtrack out dd w = b := by
  induction w with
  | zero =>
    have : b = 0 := Nat.le_zero.mp hbw
    subst this
    rfl
  | succ w ih =>
    unfold backtrack
    by_cases hbe : b = w + 1
    · subst hbe
      have hc : ¬ (w + 1 > dd ∧ out.get? (w + 1) ≠ some '/') := by
        rintro ⟨h1, h2⟩
        rcases hstop with h | h
        · omega
        · exact h2 h
      rw [if_neg hc]
    · have hle : b ≤ w := by omega
      have hc : w + 1 > dd ∧ out.get? (w + 1) ≠ some '/' :=
        ⟨by omega, hfree (w + 1) (by omega) le_rfl⟩
      rw [if_pos hc]
      exact ih hle (fun i h1 h2 => hfree i h1 (by omega))

/-- Appending an element never shortens the buffer. -/
theorem appendElem_length (rooted : Bool) (x n : List Char) :
    x.length + n.length ≤ (appendElem rooted x n).length := by
  unfold appendElem
  split_ifs <;> simp

theorem foldl_appendElem_length (rooted : Bool) (st : List (List Char)) (o : List Char) :
    o.length ≤ (st.foldl (appendElem rooted) o).length := by
  induction st generalizing o with
  | nil => exact le_rfl
  | cons n st ih =>
    rw [List.foldl_cons]
    exact le_trans (le_trans (Nat.le_add_right _ _) (appendElem_length rooted o n)) (ih _)

/-- A `..` met after an element `n` was appended to the buffer `x` takes the
buffer back to `x`. -/
theorem backtrack_appendElem (rooted : Bool) (x n : List Char) (dd : Nat)
    (hn : n ≠ []) (hfree : '/' ∉ n) (hdd : dd ≤ x.length) (hr : rooted = true → dd = 1) :
    (appendElem rooted x n).length > dd ∧
      (appendElem rooted x n).take
        (backtrack (appendElem rooted x n) dd ((appendElem rooted x n).length - 1)) = x := by
  have hnl : 0 < n.length := List.length_pos.mpr hn
  have hlen := appendElem_length rooted x n
  refine ⟨by omega, ?_⟩
  have key : backtrack (appendElem rooted x n) dd ((appendElem rooted x n).length - 1) =
      x.length := by
    unfold appendElem
    by_cases hs : (rooted = true ∧ x.length ≠ 1) ∨ (¬ rooted = true ∧ x.length ≠ 0)
    · rw [if_pos hs]
      apply backtrack_eq _ _ _ _ hdd
      · simp only [List.length_append, List.length_cons, List.length_nil]
        omega
      · right
        rw [List.get?_eq_getElem?, List.append_assoc, List.getElem?_append_right le_rfl]
        simp
      · intro i h1 h2 h3
        rw [List.get?_eq_getElem?, List.append_assoc,
          List.getElem?_append_right (by omega)] at h3
        have h4 : (['/'] ++ n)[i - x.length]? = n[i - x.length - 1]? := by
          rw [List.getElem?_append_right (by simp; omega)]
          simp
        rw [h4] at h3
        exact hfree (List.getElem?_mem h3)
    · rw [if_neg hs]
      have hx : x.length = dd := by
        by_cases hr2 : rooted = true
        · have h1 : x.length = 1 := by
            by_contra hne
            exact hs (Or.inl ⟨hr2, hne⟩)
          rw [h1, hr hr2]
        · have h0 : x.length = 0 := by
            by_contra hne
            exact hs (Or.inr ⟨hr2, hne⟩)
          omega
      apply backtrack_eq _ _ _ _ hdd
      · simp only [List.length_append]
        omega
      · exact Or.inl hx
      · intro i h1 h2 h3
        rw [List.get?_eq_getElem?, List.getElem?_append_right (by omega)] at h3
        exact hfree (List.getElem?_mem h3)
  rw [key]
  unfold appendElem
  split_ifs
  · rw [List.append_assoc, List.take_left]
  · rw [List.take_left]

/-! ## `path.Clean` on a path that never climbs above its start -/

theorem walk_skip (st : List (List Char)) (ss : List (List Char)) :
    walk st ([] :: ss) = walk st ss := by
  simp [walk]

theorem staysBelow_skip (d : Nat) (ss : List (List Char)) :
    staysBelow d ([] :: ss) = staysBelow d ss := by
  simp [staysBelow]

theorem walk_push (st ss : List (List Char)) (s : List Char) (h0 : s ≠ []) (h1 : s ≠ ['.'])
    (h2 : s ≠ ['.', '.']) : walk st (s :: ss) = walk (st ++ [s]) ss := by
  have h3 : ¬ (s = [] ∨ s = ['.']) := fun h => h.elim h0 h1
  rw [walk, if_neg h2, if_neg h3]

theorem staysBelow_push (d : Nat) (ss : List (List Char)) (s : List Char) (h0 : s ≠ [])
    (h1 : s ≠ ['.']) (h2 : s ≠ ['.', '.']) :
    staysBelow d (s :: ss) = staysBelow (d + 1) ss := by
  have h3 : ¬ (s = [] ∨ s = ['.']) := fun h => h.elim h0 h1
  rw [staysBelow, if_neg h2, if_neg h3]

/-- Reading a path that never climbs above the buffer `o`, with the names `st`
already appended to `o`: the loop leaves `o` followed by the names the walk
ends with. -/
theorem cleanLoop_walk (rooted : Bool) (f : Nat) (p o : List Char) (st : List (List Char))
    (dd : Nat) (hf : p.length ≤ f) (hdd : dd ≤ o.length) (hr : rooted = true → dd = 1)
    (hst : ∀ n ∈ st, n ≠ [] ∧ '/' ∉ n)
    (hp : staysBelow st.length (segments p) = true) :
    (cleanLoop rooted f p (st.foldl (appendElem rooted) o) dd).1 =
      (walk st (segments p)).foldl (appendElem rooted) o := by
  induction f generalizing p st with
  | zero =>
    have h0 : p = [] := List.length_eq_zero.mp (Nat.le_zero.mp hf)
    subst h0
    simp [cleanLoop, segments, walk]
  | succ f ih =>
    cases p with
    | nil => simp [cleanLoop, segments, walk]
    | cons c rest =>
      simp only [List.length_cons, Nat.add_le_add_iff_right] at hf
      rw [cleanLoop_cons]
      by_cases h1 : c = '/'
      · subst h1
        rw [cleanStep_slash]
        rw [segments_cons_slash, staysBelow_skip] at hp
        rw [segments_cons_slash, walk_skip]
        exact ih rest st hf hst hp
      · rw [segments_cons_ne c rest h1] at hp ⊢
        have hd := segments_dropWhile rest
        by_cases h2 : isDot c rest
        · obtain ⟨ht, hdr⟩ := isDot_split c rest h2
          rw [cleanStep_dot rooted c rest _ dd h1 h2]
          rw [hdr] at hd hp ⊢
          rw [ht, h2.1] at hp ⊢
          have e1 : walk st (['.'] :: restSegments rest) = walk st (segments rest) := by
            rw [hd, walk_skip]
            simp [walk]
          have e2 : staysBelow st.length (['.'] :: restSegments rest) =
              staysBelow st.length (segments rest) := by
            rw [hd, staysBelow_skip]
            simp [staysBelow]
          rw [e1]
          rw [e2] at hp
          exact ih rest st hf hst hp
        · by_cases h3 : isDotDot c rest
          · obtain ⟨out1, dd1, hs, hgt, -⟩ := cleanStep_dotdot rooted c rest
              (st.foldl (appendElem rooted) o) dd h1 h2 h3
            rw [hs]
            rw [isDotDot_takeWhile c rest h3] at hp ⊢
            have htail := isDotDot_tail c rest h3
            have hp2 : (0 < st.length) ∧
                staysBelow (st.length - 1) (restSegments (rest.dropWhile (· ≠ '/'))) = true := by
              simpa [staysBelow] using hp
            have hne : st ≠ [] := List.length_pos.mp hp2.1
            have hsplit := List.dropLast_concat_getLast hne
            have hlast := hst (st.getLast hne) (List.getLast_mem hne)
            have hfold : st.foldl (appendElem rooted) o =
                appendElem rooted (st.dropLast.foldl (appendElem rooted) o) (st.getLast hne) := by
              conv_lhs => rw [← hsplit]
              rw [List.foldl_append]
              rfl
            have hpop := backtrack_appendElem rooted (st.dropLast.foldl (appendElem rooted) o)
              (st.getLast hne) dd hlast.1 hlast.2
              (le_trans hdd (foldl_appendElem_length rooted _ o)) hr
            rw [← hfold] at hpop
            obtain ⟨ho1, hd1⟩ := hgt hpop.1
            show (cleanLoop rooted f rest.tail out1 dd1).1 = _
            rw [ho1, hd1, hpop.2]
            have e1 : walk st (['.', '.'] :: restSegments (rest.dropWhile (· ≠ '/'))) =
                walk st.dropLast (segments rest.tail) := by
              rw [htail, walk_skip]
              simp [walk]
            rw [e1]
            refine ih rest.tail st.dropLast (le_trans (by simp) hf)
              (fun n hn => hst n (List.dropLast_subset st hn)) ?_
            rw [htail, staysBelow_skip, List.length_dropLast]
            exact hp2.2
          · rw [cleanStep_elem rooted c rest _ dd h1 h2 h3]
            have hne1 : c :: rest.takeWhile (· ≠ '/') ≠ ['.'] :=
              fun h => h2 (isDot_of_takeWhile c rest h)
            have hne2 : c :: rest.takeWhile (· ≠ '/') ≠ ['.', '.'] :=
              fun h => h3 (isDotDot_of_takeWhile c rest h)
            have hfree : '/' ∉ c :: rest.takeWhile (· ≠ '/') := by
              simp only [List.mem_cons, not_or]
              exact ⟨fun h => h1 h.symm, takeWhile_no_slash rest⟩
            have e1 : walk st ((c :: rest.takeWhile (· ≠ '/')) ::
                  restSegments (rest.dropWhile (· ≠ '/'))) =
                walk (st ++ [c :: rest.takeWhile (· ≠ '/')])
                  (segments (rest.dropWhile (· ≠ '/'))) := by
              rw [hd, walk_skip]
              exact walk_push _ _ _ (List.cons_ne_nil _ _) hne1 hne2
            have e2 : staysBelow st.length ((c :: rest.takeWhile (· ≠ '/')) ::
                  restSegments (rest.dropWhile (· ≠ '/'))) =
                staysBelow (st ++ [c :: rest.takeWhile (· ≠ '/')]).length
                  (segments (rest.dropWhile (· ≠ '/'))) := by
              rw [hd, staysBelow_skip, List.length_append, List.length_singleton]
              exact staysBelow_push _ _ _ (List.cons_ne_nil _ _) hne1 hne2
            rw [e1]
            rw [e2] at hp
            have hlen : (rest.dropWhile (· ≠ '/')).length ≤ f :=
              le_trans (List.dropWhile_suffix _).length_le hf
            have := ih (rest.dropWhile (· ≠ '/')) (st ++ [c :: rest.takeWhile (· ≠ '/')]) hlen
              (by
                intro n hn
                rcases List.mem_append.mp hn with hn | hn
                · exact hst n hn
                · rw [List.mem_singleton] at hn
                  subst hn
                  exact ⟨List.cons_ne_nil _ _, hfree⟩) hp
            rw [List.foldl_append] at this
            simpa [appendElem] using this

/-! ## A rooted buffer keeps its leading slash -/

theorem backtrack_ge (out : List Char) (dd w : Nat) (h : dd ≤ w) : dd ≤ backtrack out dd w := by
  induction w with
  | zero => simpa [backtrack] using h
  | succ w ih =>
    unfold backtrack
    split_ifs with hc
    · exact ih (by omega)
    · exact h

theorem head_take (out : List Char) (k : Nat) (hk : 1 ≤ k) : (out.take k).head? = out.head? := by
  cases out with
  | nil => simp
  | cons a l =>
    cases k with
    | zero => omega
    | succ k => rfl

theorem cleanStep_rooted (c : Char) (rest out : List Char)
    (h : out.head? = some '/') :
    (cleanStep true c rest out 1).2.1.head? = some '/' ∧ (cleanStep true c rest out 1).2.2 = 1 := by
  by_cases h1 : c = '/'
  · subst h1
    rw [cleanStep_slash]
    exact ⟨h, rfl⟩
  · by_cases h2 : isDot c rest
    · rw [cleanStep_dot true c rest out 1 h1 h2]
      exact ⟨h, rfl⟩
    · by_cases h3 : isDotDot c rest
      · obtain ⟨out1, dd1, hs, hgt, hle⟩ := cleanStep_dotdot true c rest out 1 h1 h2 h3
        rw [hs]
        by_cases h4 : out.length > 1
        · obtain ⟨ho, hd⟩ := hgt h4
          refine ⟨?_, hd⟩
          show out1.head? = some '/'
          rw [ho, head_take _ _ (backtrack_ge out 1 _ (by omega))]
          exact h
        · obtain ⟨ho, hd⟩ := hle h4 rfl
          refine ⟨?_, hd⟩
          show out1.head? = some '/'
          rw [ho]
          exact h
      · rw [cleanStep_elem true c rest out 1 h1 h2 h3]
        refine ⟨?_, rfl⟩
        cases out with
        | nil => simp at h
        | cons a l =>
          simp only [List.head?_cons] at h
          show (((if _ then _ else _) ++ _ : List Char)).head? = some '/'
          split_ifs <;> simpa using h

theorem cleanLoop_rooted (f : Nat) (p out : List Char) (h : out.head? = some '/') :
    (cleanLoop true f p out 1).1.head? = some '/' ∧ (cleanLoop true f p out 1).2 = 1 := by
  induction f generalizing p out with
  | zero => exact ⟨h, rfl⟩
  | succ f ih =>
    cases p with
    | nil => exact ⟨h, rfl⟩
    | cons c rest =>
      rw [cleanLoop_cons]
      obtain ⟨h1, h2⟩ := cleanStep_rooted c rest out h
      rw [h2]
      exact ih _ _ h1

/-- An iteration keeps the `dotdot` mark inside the buffer. -/
theorem cleanStep_dd_le (rooted : Bool) (c : Char) (rest out : List Char) (dd : Nat)
    (h : dd ≤ out.length) :
    (cleanStep rooted c rest out dd).2.2 ≤ (cleanStep rooted c rest out dd).2.1.length := by
  by_cases h1 : c = '/'
  · subst h1
    rw [cleanStep_slash]
    exact h
  · by_cases h2 : isDot c rest
    · rw [cleanStep_dot rooted c rest out dd h1 h2]
      exact h
    · by_cases h3 : isDotDot c rest
      · unfold cleanStep
        rw [if_neg h1, if_neg h2, if_pos h3]
        by_cases h4 : out.length > dd
        · rw [if_pos h4]
          have := backtrack_ge out dd (out.length - 1) (by omega)
          simp only [List.length_take]
          omega
        · rw [if_neg h4]
          by_cases h5 : ¬ rooted = true
          · rw [if_pos h5]
          · rw [if_neg h5]
            exact h
      · rw [cleanStep_elem rooted c rest out dd h1 h2 h3]
        simp only [List.length_append]
        split_ifs <;> simp <;> omega

theorem cleanLoop_dd_le (rooted : Bool) (f : Nat) (p out : List Char) (dd : Nat)
    (h : dd ≤ out.length) :
    (cleanLoop rooted f p out dd).2 ≤ (cleanLoop rooted f p out dd).1.length := by
  induction f generalizing p out dd with
  | zero => exact h
  | succ f ih =>
    cases p with
    | nil => exact h
    | cons c rest =>
      rw [cleanLoop_cons]
      exact ih _ _ _ (cleanStep_dd_le rooted c rest out dd h)

/-! ## Names and descending paths -/

theorem segments_no_slash (p : List Char) : ∀ s ∈ segments p, '/' ∉ s := by
  induction p with
  | nil => simp [segments]
  | cons c cs ih =>
    by_cases h : c = '/'
    · subst h
      rw [segments_cons_slash]
      intro s hs
      rcases List.mem_cons.mp hs with hs | hs
      · subst hs
        simp
      · exact ih s hs
    · intro s hs
      rw [segments_eq] at hs ih
      have hc : (decide (c ≠ '/')) = true := by simpa using h
      simp only [List.takeWhile_cons, List.dropWhile_cons, hc, if_true] at hs
      rcases List.mem_cons.mp hs with hs | hs
      · subst hs
        have := ih _ (List.mem_cons_self _ _)
        simp only [List.mem_cons, not_or]
        exact ⟨fun hh => h hh.symm, this⟩
      · exact ih s (List.mem_cons_of_mem _ hs)

/-- The names a walk ends with are directory-entry names without `/`. -/
theorem walk_spec (segs st : List (List Char)) (hsegs : ∀ s ∈ segs, '/' ∉ s)
    (hst : ∀ n ∈ st, isName n = true ∧ '/' ∉ n) :
    ∀ n ∈ walk st segs, isName n = true ∧ '/' ∉ n := by
  induction segs generalizing st with
  | nil => exact hst
  | cons s ss ih =>
    have hss : ∀ x ∈ ss, '/' ∉ x := fun x hx => hsegs x (List.mem_cons_of_mem _ hx)
    rw [walk]
    by_cases h2 : s = ['.', '.']
    · rw [if_pos h2]
      exact ih st.dropLast hss (fun n hn => hst n (List.dropLast_subset st hn))
    · rw [if_neg h2]
      by_cases h3 : s = [] ∨ s = ['.']
      · rw [if_pos h3]
        exact ih st hss hst
      · rw [if_neg h3]
        refine ih (st ++ [s]) hss ?_
        intro n hn
        rcases List.mem_append.mp hn with hn | hn
        · exact hst n hn
        · rw [List.mem_singleton] at hn
          subst hn
          refine ⟨?_, hsegs n (List.mem_cons_self _ _)⟩
          unfold isName
          exact decide_eq_true ⟨fun h => h3 (Or.inl h), fun h => h3 (Or.inr h), h2⟩

theorem segments_cons_step (a : Char) (cs s : List Char) (ss : List (List Char))
    (ha : a ≠ '/') (hs : segments cs = s :: ss) : segments (a :: cs) = (a :: s) :: ss := by
  simp only [segments, if_neg ha, hs]

theorem segments_append_free (m t h : List Char) (tl : List (List Char)) (hm : '/' ∉ m)
    (ht : segments t = h :: tl) : segments (m ++ t) = (m ++ h) :: tl := by
  induction m with
  | nil => simpa using ht
  | cons a m ih =>
    simp only [List.mem_cons, not_or] at hm
    have ha : a ≠ '/' := fun hh => hm.1 hh.symm
    rw [List.cons_append]
    exact segments_cons_step a _ _ _ ha (ih hm.2)

theorem segments_slashJoin (ns : List (List Char)) (h : ∀ n ∈ ns, '/' ∉ n) :
    segments (slashJoin ns) = [] :: ns := by
  induction ns with
  | nil => rfl
  | cons m ns ih =>
    have hm := h m (List.mem_cons_self _ _)
    have hih := ih (fun n hn => h n (List.mem_cons_of_mem _ hn))
    have e : slashJoin (m :: ns) = '/' :: (m ++ slashJoin ns) := by
      simp [slashJoin]
    rw [e, segments_cons_slash, segments_append_free m _ [] ns hm hih, List.append_nil]

/-- A name followed by further names, each after a `/`, is a descending path. -/
theorem descends_names (n : List Char) (ns : List (List Char))
    (h : ∀ m ∈ n :: ns, isName m = true ∧ '/' ∉ m) :
    descends (n ++ slashJoin ns) = true := by
  unfold descends
  rw [segments_append_free n _ [] ns (h n (List.mem_cons_self _ _)).2
    (segments_slashJoin ns (fun m hm => (h m (List.mem_cons_of_mem _ hm)).2)), List.append_nil]
  rw [List.all_eq_true]
  intro m hm
  exact (h m hm).1

/-- Once the buffer needs a slash before the next element, appending names
appends each after a `/`. -/
theorem foldl_appendElem (rooted : Bool) (ns : List (List Char)) (o : List Char)
    (ho : (rooted = true ∧ o.length ≠ 1) ∨ (¬ rooted = true ∧ o.length ≠ 0))
    (hr : rooted = true → o.length ≠ 0) :
    ns.foldl (appendElem rooted) o = o ++ slashJoin ns := by
  induction ns generalizing o with
  | nil => simp [slashJoin]
  | cons n ns ih =>
    have e : appendElem rooted o n = o ++ '/' :: n := by
      unfold appendElem
      rw [if_pos ho]
      simp
    rw [List.foldl_cons, e, ih]
    · simp [slashJoin]
    · by_cases hr2 : rooted = true
      · left
        refine ⟨hr2, ?_⟩
        have := hr hr2
        simp only [List.length_append, List.length_cons]
        omega
      · right
        refine ⟨hr2, ?_⟩
        simp
    · intro _
      simp

/-! ## `path.Join` of a root and a request path -/

theorem Clean_rooted (t : List Char) :
    Clean ('/' :: t) = finish (cleanLoop true t.length t ['/'] 1).1 := by
  unfold Clean finish
  simp only [List.cons_ne_nil, if_false, List.head?_cons, decide_True, if_true, List.tail_cons,
    List.length_cons]
  rw [cleanLoop_fuel true (t.length + 1) t.length t ['/'] 1 (by omega) le_rfl]

theorem Clean_relative (c : Char) (t : List Char) (hc : c ≠ '/') :
    Clean (c :: t) = finish (cleanLoop false (c :: t).length (c :: t) [] 0).1 := by
  unfold Clean finish
  have h : ¬ (some c = some '/') := by simpa using hc
  simp only [List.cons_ne_nil, if_false, List.head?_cons, h, decide_False, Bool.false_eq_true]

theorem Join_pair (root p : List Char) (hroot : root ≠ []) :
    Join [root, p] = Clean (root ++ '/' :: p) := by
  have hl : 0 < root.length := List.length_pos.mpr hroot
  unfold Join
  have h0 : ¬ (([root, p].map List.length).sum = 0) := by
    simp only [List.map_cons, List.map_nil, List.sum_cons, List.sum_nil]
    omega
  rw [if_neg h0]
  simp [hroot, hl]

/-- Joining a non-empty root with a request path that never climbs above it:
the cleaned root is the finished buffer `o` after reading the root, and the
joined path is the finished buffer after appending to `o` the names the walk
along the request path ends with. -/
theorem Join_walk (root p : List Char) (hroot : root ≠ [])
    (hp : staysBelow 0 (segments p) = true) :
    ∃ (rooted : Bool) (o : List Char), Clean root = finish o ∧
      Join [root, p] = finish ((walk [] (segments p)).foldl (appendElem rooted) o) ∧
      (rooted = true → o.head? = some '/') := by
  rw [Join_pair root p hroot]
  cases root with
  | nil => exact absurd rfl hroot
  | cons c t =>
    by_cases hc : c = '/'
    · subst hc
      obtain ⟨hhead, hdd⟩ := cleanLoop_rooted t.length t ['/'] rfl
      refine ⟨true, (cleanLoop true t.length t ['/'] 1).1, Clean_rooted t, ?_, fun _ => hhead⟩
      rw [List.cons_append, Clean_rooted,
        cleanLoop_append true _ t p ['/'] 1 (by simp; omega), hdd]
      have hlen : 1 ≤ (cleanLoop true t.length t ['/'] 1).1.length := by
        cases hh : (cleanLoop true t.length t ['/'] 1).1 with
        | nil => rw [hh] at hhead; simp at hhead
        | cons a l => simp
      exact congrArg finish (cleanLoop_walk true _ p _ [] 1 le_rfl hlen (fun _ => rfl)
        (fun n hn => absurd hn (List.not_mem_nil n)) hp)
    · refine ⟨false, (cleanLoop false (c :: t).length (c :: t) [] 0).1, Clean_relative c t hc,
        ?_, fun h => by cases h⟩
      rw [List.cons_append, Clean_relative c _ hc, ← List.cons_append,
        cleanLoop_append false _ (c :: t) p [] 0 (by simp; omega)]
      exact congrArg finish (cleanLoop_walk false _ p _ [] _ le_rfl
        (cleanLoop_dd_le false _ _ [] 0 le_rfl) (fun h => by cases h)
        (fun n hn => absurd hn (List.not_mem_nil n)) hp)

/-- The path `path.Join` builds from a non-empty root and a request path that
never climbs above it is the cleaned root or lies strictly beneath it. -/
theorem Join_within (root p : List Char) (hroot : root ≠ [])
    (hp : staysBelow 0 (segments p) = true) :
    within (Clean root) (Join [root, p]) := by
  obtain ⟨rooted, o, hc, hj, ho⟩ := Join_walk root p hroot hp
  have hns := walk_spec (segments p) [] (segments_no_slash p)
    (fun n hn => absurd hn (List.not_mem_nil n))
  rw [hc, hj]
  cases hn : walk [] (segments p) with
  | nil => exact Or.inl rfl
  | cons n ns =>
    rw [hn] at hns
    have hdesc := descends_names n ns hns
    have hn1 : n ≠ [] := by
      have := (hns n (List.mem_cons_self _ _)).1
      unfold isName at this
      exact (of_decide_eq_true this).1
    rw [List.foldl_cons]
    by_cases hs : (rooted = true ∧ o.length ≠ 1) ∨ (¬ rooted = true ∧ o.length ≠ 0)
    · -- a separating slash is written
      have hr : rooted = true → o.length ≠ 0 := by
        intro h
        have := ho h
        cases o with
        | nil => simp at this
        | cons a l => simp
      have e : appendElem rooted o n = o ++ '/' :: n := by
        unfold appendElem
        rw [if_pos hs]
        simp
      have hs2 : (rooted = true ∧ (o ++ '/' :: n).length ≠ 1) ∨
          (¬ rooted = true ∧ (o ++ '/' :: n).length ≠ 0) := by
        by_cases hr2 : rooted = true
        · left
          refine ⟨hr2, ?_⟩
          have := hr hr2
          simp only [List.length_append, List.length_cons]
          omega
        · right
          exact ⟨hr2, by simp⟩
      rw [e, foldl_appendElem rooted ns _ hs2 (fun _ => by simp)]
      have ho0 : o.length ≠ 0 := by
        rcases hs with ⟨h, _⟩ | ⟨_, h⟩
        · exact hr h
        · exact h
      have hf1 : finish o = o := by
        unfold finish
        rw [if_neg ho0]
      have hf2 : finish (o ++ '/' :: n ++ slashJoin ns) = o ++ '/' :: n ++ slashJoin ns := by
        unfold finish
        rw [if_neg (by simp)]
      rw [hf1, hf2]
      right; right; right
      have e2 : o ++ '/' :: n ++ slashJoin ns = (o ++ ['/']) ++ (n ++ slashJoin ns) := by simp
      have e3 : o.length + 1 = (o ++ ['/']).length := by simp
      rw [e2, e3, List.take_left, List.drop_left]
      exact ⟨rfl, hdesc⟩
    · -- no slash is written: the buffer is empty (relative) or the single slash (rooted)
      have e : appendElem rooted o n = o ++ n := by
        unfold appendElem
        rw [if_neg hs]
      rw [e]
      by_cases hr2 : rooted = true
      · have hlen : o.length = 1 := by
          by_contra hne
          exact hs (Or.inl ⟨hr2, hne⟩)
        have ho1 : o = ['/'] := by
          have hh := ho hr2
          cases o with
          | nil => simp at hlen
          | cons a l =>
            simp only [List.head?_cons, Option.some.injEq] at hh
            simp only [List.length_cons, Nat.add_left_eq_self, List.length_eq_zero] at hlen
            rw [hh, hlen]
        subst ho1
        have hs2 : (rooted = true ∧ (['/'] ++ n).length ≠ 1) ∨
            (¬ rooted = true ∧ (['/'] ++ n).length ≠ 0) := by
          left
          refine ⟨hr2, ?_⟩
          have : 0 < n.length := List.length_pos.mpr hn1
          simp only [List.length_append, List.length_cons, List.length_nil]
          omega
        rw [foldl_appendElem rooted ns _ hs2 (fun _ => by simp)]
        have hf2 : finish (['/'] ++ n ++ slashJoin ns) = '/' :: (n ++ slashJoin ns) := by
          unfold finish
          rw [if_neg (by simp)]
          simp
        rw [hf2]
        right; right; left
        exact ⟨rfl, rfl, hdesc⟩
      · have hlen : o.length = 0 := by
          by_contra hne
          exact hs (Or.inr ⟨hr2, hne⟩)
        have ho1 : o = [] := List.length_eq_zero.mp hlen
        subst ho1
        have hs2 : (rooted = true ∧ ([] ++ n).length ≠ 1) ∨
            (¬ rooted = true ∧ ([] ++ n).length ≠ 0) := by
          right
          refine ⟨hr2, ?_⟩
          have : 0 < n.length := List.length_pos.mpr hn1
          simp only [List.nil_append]
          omega
        rw [foldl_appendElem rooted ns _ hs2 (fun h => absurd h hr2)]
        have hf2 : finish ([] ++ n ++ slashJoin ns) = n ++ slashJoin ns := by
          unfold finish
          rw [if_neg (by simp [hn1])]
          simp
        rw [hf2]
        right; left
        exact ⟨rfl, hdesc⟩

/-- The only file the handler opens is `path.Join(*root, r.URL.Path)`. -/
theorem opened_path_eq (cfg : Config) (env : Env) (r : Request) (fp : List Char)
    (h : Event.openFile fp ∈ (ServeHTTP cfg env ResponseWriter.fresh r).trace) :
    fp = Join [cfg.root.data, r.Path.data] := by
  by_cases hm : r.Method = "GET"
  swap
  · simp [ServeHTTP, hm] at h
  cases ho : env.Open (Join [cfg.root.data, r.Path.data]) with
  | error err =>
    rw [(open_failure_trace cfg env r err hm ho)] at h
    simpa using h
  | ok file =>
    cases hd : dialErr cfg env with
    | some e =>
      obtain ⟨tr, hs, htr, -⟩ := serve_dial_failed cfg env r file e hm ho hd
      rw [hs] at h
      simp only [List.mem_append, List.mem_cons, List.mem_singleton, List.not_mem_nil,
        or_false, reduceCtorEq, Event.openFile.injEq] at h
      rcases h with h | h
      · exact h
      · rcases htr _ h with ⟨n, a, h'⟩ | ⟨n, a, h'⟩ <;> cases h'
    | none =>
      by_cases hbad : (firstRead env file).2 ≠ none ∨ (firstRead env file).1 = 0
      · obtain ⟨addr, a, hs⟩ := serve_bad_read cfg env r file hm ho hd hbad
        rw [hs] at h
        by_cases he : (firstRead env file).2 = none <;> simpa [he] using h
      · simp only [not_or, ne_eq, not_not] at hbad
        obtain ⟨addr, a, hs⟩ := serve_ok cfg env r file hm ho hd hbad.1 hbad.2
        rw [hs] at h
        simpa using h

/-- A path with no `..` element never climbs. -/
theorem staysBelow_of_no_dotdot (segs : List (List Char)) (d : Nat)
    (h : ['.', '.'] ∉ segs) : staysBelow d segs = true := by
  induction segs generalizing d with
  | nil => rfl
  | cons s ss ih =>
    have h2 : s ≠ ['.', '.'] := fun e => h (e ▸ List.mem_cons_self _ _)
    have hss : ['.', '.'] ∉ ss := fun e => h (List.mem_cons_of_mem _ e)
    rw [staysBelow, if_neg h2]
    split_ifs
    · exact ih d hss
    · exact ih (d + 1) hss

/-- C8 (counterexample): with root `/srv/images` the GET request for
`/../../etc/passwd`, whose `..` elements climb above the root, makes the
handler open `/etc/passwd`, which is neither the cleaned root nor beneath it;
and with the empty root the request for `/etc/passwd` opens the absolute path
`/etc/passwd`, which is not beneath the cleaned root `.`. -/
theorem join_escapes_root :
    (Event.openFile "/etc/passwd".data ∈
      (ServeHTTP imagesCfg sampleEnv ResponseWriter.fresh ⟨"GET", "/../../etc/passwd"⟩).trace ∧
     Clean imagesCfg.root.data = "/srv/images".data ∧
     staysBelow 0 (segments "/../../etc/passwd".data) = false ∧
     ¬ within (Clean imagesCfg.root.data) "/etc/passwd".data) ∧
    (Event.openFile "/etc/passwd".data ∈
      (ServeHTTP emptyRootCfg sampleEnv ResponseWriter.fresh ⟨"GET", "/etc/passwd"⟩).trace ∧
     Clean emptyRootCfg.root.data = ".".data ∧
     ¬ within (Clean emptyRootCfg.root.data) "/etc/passwd".data) := by
  decide

/-- C8 (amended): for every non-empty configured root and every request path
(possibly containing `..` elements) whose `..` elements never climb above the
root, that is, each `..` comes after more names than `..` elements before it,
every file path the handler opens is the cleaned root itself or a path
strictly beneath it. -/
theorem opened_path_within_root (cfg : Config) (env : Env) (r : Request) (fp : List Char)
    (hroot : cfg.root.data ≠ [])
    (hp : staysBelow 0 (segments r.Path.data) = true)
    (h : Event.openFile fp ∈ (ServeHTTP cfg env ResponseWriter.fresh r).trace) :
    within (Clean cfg.root.data) fp := by
  rw [opened_path_eq cfg env r fp h]
  exact Join_within _ _ hroot hp

/-- Witness for C8: root `/srv/images` and the request path
`/2016/../2017/./photo.jpg`, which contains a `..` element. -/
theorem opened_path_within_root_witness :
    within (Clean imagesCfg.root.data) "/srv/images/2017/photo.jpg".data :=
  opened_path_within_root imagesCfg sampleEnv ⟨"GET", "/2016/../2017/./photo.jpg"⟩
    "/srv/images/2017/photo.jpg".data (by decide) (by decide) (by decide)

end GoLEP
